import Mathlib

/-!
# stereoize: joining two mono WAV files into one stereo file

A shallow embedding of `main.go` (pair resolution, `validateEqual`, `lr.combine`, the
sample merge loop) and of the vendored `go-wav/writer.go` (`NewWriter`, `WriteSamples`,
`toUint`), followed by theorems about them.

Conventions of the embedding.
* Go's fixed-width unsigned integers are natural numbers; where the source can overflow,
  the wrap-around is written out as `% 2 ^ w`. Go's `int` is the 64-bit signed integer.
* A Go `panic` is the `.error` branch of `Except String`, carrying the panic message.
* Go strings are Lean strings; `fmt`'s `%v` of an unsigned integer is its decimal form.
-/

deriving instance DecidableEq for Except

namespace Stereoize

/-! ## Data model -/

/-- Modelled from the spec: the format-description record `wav.WavFormat`, whose declaration
is in the reader half of the vendored package. The field order is the one of the positional
literal in `NewWriter`; the widths are 16, 16, 32, 32, 16, 16 bits. -/
structure WavFormat where
  AudioFormat : Nat
  NumChannels : Nat
  SampleRate : Nat
  ByteRate : Nat
  BlockAlign : Nat
  BitsPerSample : Nat
deriving DecidableEq, Repr

/-- Modelled from the spec: the tag of uncompressed PCM audio, the constant
`wav.AudioFormatPCM`. -/
def AudioFormatPCM : Nat := 1

/-- Modelled from the spec: the data chunk handle `wav.WavData`; only its declared byte
length `Size` (32 bits) is used by `main.go`. -/
structure WavData where
  Size : Nat
deriving DecidableEq, Repr

/-- Modelled from the spec: a `wav.Reader` as seen by `main.go`, namely the outcomes of its
two accessors `Format()` and `Data()`, each either a value or an error. -/
structure Reader where
  Format : Except String WavFormat
  Data : Except String WavData

/-- Modelled from the spec: one time instant of audio, `wav.Sample`, with its two value
slots `Values[0]` (left) and `Values[1]` (right). -/
structure Sample where
  Values : Int × Int
deriving DecidableEq, Repr

/-- The pair of source file names of one stereo output (`type lr struct`). -/
structure lr where
  L : String
  R : String
deriving DecidableEq, Repr

/-! ## `validateEqual` -/

/-- The function `validateEqual` of `main.go`: the four accessor calls, the seven checks in
their order, and the left descriptor as result. -/
def validateEqual (l r : Reader) : Except String WavFormat :=
  match l.Format with
  | .error err => .error err
  | .ok lfmt =>
  match r.Format with
  | .error err => .error err
  | .ok rfmt =>
  match l.Data with
  | .error err => .error err
  | .ok ldata =>
  match r.Data with
  | .error err => .error err
  | .ok rdata =>
  if lfmt.NumChannels ≠ 1 then .error "L file not mono"
  else if rfmt.NumChannels ≠ 1 then .error "R file not mono"
  else if lfmt.SampleRate ≠ rfmt.SampleRate then
    .error ("Sample rates not equal: L " ++ toString lfmt.SampleRate ++ " R "
      ++ toString rfmt.SampleRate)
  else if lfmt.BitsPerSample ≠ rfmt.BitsPerSample then
    .error ("Bit rates not equal: L " ++ toString lfmt.BitsPerSample ++ " R "
      ++ toString rfmt.BitsPerSample)
  else if lfmt.BlockAlign ≠ rfmt.BlockAlign then
    .error ("Block size not equal: L " ++ toString lfmt.BlockAlign ++ " R "
      ++ toString rfmt.BlockAlign)
  else if lfmt.AudioFormat ≠ rfmt.AudioFormat then
    .error ("Audio format not equal: L " ++ toString lfmt.AudioFormat ++ " R "
      ++ toString rfmt.AudioFormat)
  else if ldata.Size ≠ rdata.Size then
    .error ("Sample counts not equal: L " ++ toString ldata.Size ++ " R "
      ++ toString rdata.Size)
  else .ok lfmt

/-- A reader whose header decoded to `fmt` and whose data chunk declares `size` bytes. -/
def Reader.decoded (fmt : WavFormat) (size : Nat) : Reader :=
  { Format := .ok fmt, Data := .ok { Size := size } }

/-! ## `lr.combine` -/

/-- The method `lr.combine` of `main.go`. The two panics carry the text of
`"mis-matched L files: '%v' and '%v'"` and of its `R` sibling. -/
def lr.combine (a b : lr) : Except String lr :=
  if a.L ≠ "" ∧ b.L ≠ "" then
    .error ("mis-matched L files: '" ++ a.L ++ "' and '" ++ b.L ++ "'")
  else if a.R ≠ "" ∧ b.R ≠ "" then
    .error ("mis-matched R files: '" ++ a.R ++ "' and '" ++ b.R ++ "'")
  else if a.L = "" then .ok { a with L := b.L }
  else .ok { a with R := b.R }

/-! ## Go standard library functions used by the pair resolution loop -/

/-- First position at which `substr` occurs in `s`, on character lists. -/
def indexChars (substr : List Char) : List Char → Option Nat
  | [] => if substr.isPrefixOf [] then some 0 else none
  | c :: t =>
    if substr.isPrefixOf (c :: t) then some 0 else (indexChars substr t).map (· + 1)

/-- Go's `strings.Index`, with `none` for the result `-1`. -/
def strings.Index (s substr : String) : Option Nat :=
  indexChars substr.data s.data

/-- Go's `strings.Contains`: `Index(s, substr) >= 0`. -/
def strings.Contains (s substr : String) : Bool :=
  (strings.Index s substr).isSome

/-- Replacement of the first `n` non-overlapping occurrences of a non-empty `old`, the loop
of Go's `strings.Replace`: find the next occurrence, copy what precedes it, put `new`,
continue behind the occurrence. -/
def replaceChars (old new : List Char) : Nat → List Char → List Char
  | 0, s => s
  | n + 1, s =>
    match indexChars old s with
    | none => s
    | some j => s.take j ++ new ++ replaceChars old new n (s.drop (j + old.length))

/-- The case of an empty `old` in Go's `strings.Replace`: `new` goes in front of the string
and after each character, at most `n` times. -/
def insertChars (new : List Char) : Nat → List Char → List Char
  | 0, s => s
  | _ + 1, [] => new
  | n + 1, c :: t => new ++ c :: insertChars new n t

/-- Go's `strings.Replace(s, old, new, n)`; a negative `n` puts no limit on the number of
replacements. -/
def strings.Replace (s old new : String) (n : Int) : String :=
  if old = new ∨ n = 0 then s
  else
    let k := if n < 0 then s.length + 1 else n.toNat
    if old = "" then ⟨insertChars new.data k s.data⟩
    else ⟨replaceChars old.data new.data k s.data⟩

/-- The scan of Go's `filepath.Ext` from the end of the path: `rev` is what is left of the
reversed path, `acc` the characters already passed. -/
def extChars : List Char → List Char → List Char
  | [], _ => []
  | c :: rev, acc =>
    if c = '/' then [] else if c = '.' then c :: acc else extChars rev (c :: acc)

/-- Go's `filepath.Ext` (with `/` as the path separator): the suffix of the last path
element that starts at its last dot, empty when there is no dot. -/
def filepath.Ext (path : String) : String :=
  ⟨extChars path.data.reverse []⟩

/-! ## The pair resolution loop of `main` -/

def lPattern : String := ".L.wav"

def rPattern : String := ".R.wav"

def stReplace : String := ".wav"

/-- A directory entry as `main` reads it (`f.Name()`, `f.IsDir()`). -/
structure FileInfo where
  Name : String
  IsDir : Bool
deriving DecidableEq, Repr

/-- The mapping `outs` of type `map[string]lr`, as a list of entries with distinct keys. -/
abbrev OutMap := List (String × lr)

/-- The lookup `outs[k]` with its presence flag. -/
def OutMap.get : OutMap → String → Option lr
  | [], _ => none
  | (k', v) :: rest, k => if k' = k then some v else OutMap.get rest k

/-- The assignment `outs[k] = v`: the entry of key `k` is replaced, or a new one is added. -/
def OutMap.set : OutMap → String → lr → OutMap
  | [], k, v => [(k, v)]
  | (k', v') :: rest, k, v =>
    if k' = k then (k, v) :: rest else (k', v') :: OutMap.set rest k v

/-- One turn of the loop `for _, f := range files` of `main` (lines 39 to 66). -/
def main.pairStep (outs : OutMap) (f : FileInfo) : Except String OutMap :=
  let name := f.Name
  if f.IsDir = true ∨ filepath.Ext name ≠ ".wav" then .ok outs
  else
    let found : lr × String :=
      if strings.Contains name lPattern = true then
        ({ L := name, R := "" }, strings.Replace name lPattern stReplace 1)
      else if strings.Contains name rPattern = true then
        ({ L := "", R := name }, strings.Replace name rPattern stReplace 1)
      else ({ L := "", R := "" }, "")
    let lrfiles := found.1
    let stereoFile := found.2
    if stereoFile = "" then .ok outs
    else
      match outs.get stereoFile with
      | some outlr =>
        match outlr.combine lrfiles with
        | .error err => .error err
        | .ok both => .ok (outs.set stereoFile both)
      | none => .ok (outs.set stereoFile lrfiles)

/-- The first half of one turn of the resolution loop (lines 41 to 59), on its own: `none`
when the entry is passed over, otherwise the output name `stereoFile` and the single-sided
pair `lrfiles`. -/
def main.classify (f : FileInfo) : Option (String × lr) :=
  let name := f.Name
  if f.IsDir = true ∨ filepath.Ext name ≠ ".wav" then none
  else
    let found : lr × String :=
      if strings.Contains name lPattern = true then
        ({ L := name, R := "" }, strings.Replace name lPattern stReplace 1)
      else if strings.Contains name rPattern = true then
        ({ L := "", R := name }, strings.Replace name rPattern stReplace 1)
      else ({ L := "", R := "" }, "")
    if found.2 = "" then none else some (found.2, found.1)

/-- The second half of one turn of the resolution loop (lines 61 to 65), on its own: the
pair `lrfiles` is merged into the entry of `stereoFile`, or stored as a new entry. -/
def main.store (outs : OutMap) (stereoFile : String) (lrfiles : lr) : Except String OutMap :=
  match outs.get stereoFile with
  | some outlr =>
    match outlr.combine lrfiles with
    | .error err => .error err
    | .ok both => .ok (outs.set stereoFile both)
  | none => .ok (outs.set stereoFile lrfiles)

/-- The loop over the directory entries, from a given state of `outs`. -/
def main.pairLoop : List FileInfo → OutMap → Except String OutMap
  | [], outs => .ok outs
  | f :: rest, outs =>
    match main.pairStep outs f with
    | .error err => .error err
    | .ok outs' => main.pairLoop rest outs'

/-- Pair resolution: the loop run from the empty mapping `map[string]lr{}`. -/
def main.resolve (files : List FileInfo) : Except String OutMap :=
  main.pairLoop files []

/-- The entries that the second loop of `main` (`for out, lrs := range outs`, line 68)
works on: all of them, since the loop body opens `lrs.L` and `lrs.R` without a test on
either name. -/
def main.pairsToMerge (outs : OutMap) : List (String × lr) :=
  outs

/-- The plain (non-directory) directory entries of the given names. -/
def plainFiles (names : List String) : List FileInfo :=
  names.map fun n => { Name := n, IsDir := false }

/-! ## The sample merge loop of `main` -/

/-- The body `lsamps[i].Values[1] = rsamps[i].Values[0]` of the merge loop of `main`, on
the current state `cur` of `lsamps`. An index beyond the end of a slice is Go's run-time
panic. -/
def main.mergeStep (rsamps : List Sample) (cur : List Sample) (i : Nat) :
    Except String (List Sample) :=
  match cur.get? i, rsamps.get? i with
  | some l, some r => .ok (cur.set i { l with Values := (l.Values.1, r.Values.1) })
  | some _, none =>
    .error ("runtime error: index out of range [" ++ toString i ++ "] with length "
      ++ toString rsamps.length)
  | none, _ =>
    .error ("runtime error: index out of range [" ++ toString i ++ "] with length "
      ++ toString cur.length)

/-- The loop `for i := 0; i < len(lsamps); i++` of `main` (lines 108 to 111), which updates
the left sequence in place. -/
def main.mergeLoop (lsamps rsamps : List Sample) : Except String (List Sample) :=
  (List.range lsamps.length).foldlM (main.mergeStep rsamps) lsamps

/-! ## The writer of the vendored `go-wav` package -/

/-- An `io.Writer`: the bytes it has accepted so far, and its answer to a `Write` of a
buffer after those bytes, an error or `none` for acceptance of the whole buffer. -/
structure IoWriter where
  written : List Nat
  refuses : List Nat → List Nat → Option String

/-- The method `Write` of an `io.Writer`. -/
def IoWriter.Write (w : IoWriter) (p : List Nat) : Except String IoWriter :=
  match w.refuses w.written p with
  | some err => .error err
  | none => .ok { w with written := w.written ++ p }

/-- An `io.Writer` that accepts every buffer, such as a memory buffer. -/
def IoWriter.buffer : IoWriter :=
  { written := [], refuses := fun _ _ => none }

/-- Modelled from the spec: the chunked-container writer of package `riff`, which
`NewWriter` wraps around its sink. It is represented by what it is told to declare: the
type tag and the size of the container, and the identifier and length of each chunk; the
sample bytes written through it go to the sink. -/
structure RiffWriter where
  fileType : String
  fileSize : Nat
  chunks : List (String × Nat)
  sink : IoWriter

/-- The structure `wav.Writer`: the embedded `io.Writer` (the container writer) and the
format description. -/
structure Writer where
  riff : RiffWriter
  Format : WavFormat

/-- The function `NewWriter` of `writer.go`. `blockAlign` is a 16-bit product, `byteRate`,
`dataSize` and `riffSize` are 32-bit ones. -/
def NewWriter (w : IoWriter) (numSamples numChannels sampleRate bitsPerSample : Nat) :
    Writer :=
  let blockAlign := numChannels * bitsPerSample % 2 ^ 16 / 8
  let byteRate := sampleRate * blockAlign % 2 ^ 32
  let format : WavFormat :=
    ⟨AudioFormatPCM, numChannels, sampleRate, byteRate, blockAlign, bitsPerSample⟩
  let dataSize := numSamples * format.BlockAlign % 2 ^ 32
  let riffSize := (4 + 8 + 16 + 8 + dataSize) % 2 ^ 32
  { riff :=
      { fileType := "WAVE", fileSize := riffSize,
        chunks := [("fmt ", 16), ("data", dataSize)], sink := w },
    Format := format }

/-- The function `toUint` of `writer.go`, for the 64-bit `int` and `uint`. Each conversion
to an unsigned type is a remainder; `1 << bits` is the 64-bit shift of the `int` 1. -/
def toUint (value : Int) (bits : Nat) : Nat :=
  if bits = 32 then (value % 2 ^ 32).toNat
  else if bits = 16 then (value % 2 ^ 16).toNat
  else if bits = 8 then (value % 2 ^ 64).toNat
  else if value < 0 then ((2 ^ bits % 2 ^ 64 + value) % 2 ^ 64).toNat
  else (value % 2 ^ 64).toNat

/-- The ways `WriteSamples` can end without success: a run-time panic, or the error value
that the sink returned. -/
inductive Fault where
  | panic (msg : String)
  | err (e : String)
deriving DecidableEq, Repr

/-- The read `sample.Values[i]` of the two-slot array. -/
def Sample.value (sample : Sample) (i : Nat) : Except Fault Int :=
  if i = 0 then .ok sample.Values.1
  else if i = 1 then .ok sample.Values.2
  else .error (.panic ("runtime error: index out of range [" ++ toString i ++ "] with length 2"))

/-- The loop `for b := uint16(0); b < bitsPerSample; b += 8` of `WriteSamples`, which stores
`uint8((value >> b) & math.MaxUint8)` at `raw[b/8]`. The values of `b` are the multiples of 8
below `bitsPerSample`. -/
def setRaw (value bitsPerSample : Nat) (raw : List Nat) : Except Fault (List Nat) :=
  ((List.range ((bitsPerSample + 7) / 8)).map (· * 8)).foldlM
    (fun (cur : List Nat) (b : Nat) =>
      if b / 8 < cur.length then .ok (cur.set (b / 8) (((value >>> b) &&& 255) % 2 ^ 8))
      else
        .error (.panic ("runtime error: index out of range [" ++ toString (b / 8)
          ++ "] with length " ++ toString cur.length)))
    raw

/-- The state of `WriteSamples` between two writes: the sink and the buffer `raw`. -/
structure WriteState where
  sink : IoWriter
  raw : List Nat

/-- The body of the loop over the channels in `WriteSamples`: convert the value of slot
`i`, fill `raw`, write `raw`. -/
def writeValue (bitsPerSample : Nat) (sample : Sample) (st : WriteState) (i : Nat) :
    Except Fault WriteState :=
  match sample.value i with
  | .error f => .error f
  | .ok v =>
    match setRaw (toUint v bitsPerSample) bitsPerSample st.raw with
    | .error f => .error f
    | .ok raw =>
      match st.sink.Write raw with
      | .error e => .error (.err e)
      | .ok sink => .ok { sink := sink, raw := raw }

/-- The method `WriteSamples` of `writer.go`: the writer after the call, or the fault. -/
def Writer.WriteSamples (w : Writer) (samples : List Sample) : Except Fault Writer :=
  let bitsPerSample := w.Format.BitsPerSample
  let numChannels := w.Format.NumChannels
  let raw := List.replicate (bitsPerSample / 8) 0
  match samples.foldlM
      (fun (st : WriteState) (sample : Sample) =>
        (List.range numChannels).foldlM (writeValue bitsPerSample sample) st)
      { sink := w.riff.sink, raw := raw } with
  | .error f => .error f
  | .ok st => .ok { w with riff := { w.riff with sink := st.sink } }

/-- The bytes that the sink of a writer has accepted. -/
def Writer.written (w : Writer) : List Nat :=
  w.riff.sink.written

/-- Modelled from the spec: the value of a little-endian unsigned bit pattern. -/
def leValue : List Nat → Nat
  | [] => 0
  | b :: rest => b + 256 * leValue rest

/-- Modelled from the spec: two's-complement decoding at width `w`, which subtracts `2 ^ w`
from the unsigned pattern when its top bit is set. -/
def decodeSigned (w : Nat) (pattern : Nat) : Int :=
  if 2 ^ (w - 1) ≤ pattern then (pattern : Int) - 2 ^ w else pattern

/-- Modelled from the spec: the `n` little-endian bytes of an unsigned pattern `u`; byte `k`
is bits `8k` to `8k + 7` of `u`. -/
def leBytes (u n : Nat) : List Nat :=
  (List.range n).map fun k => u / 2 ^ (8 * k) % 256

/-- Modelled from the spec: the bytes prescribed for a list of samples, sample by sample in
order, channel 0 before channel 1, each value as the `bitsPerSample / 8` little-endian bytes
of its unsigned pattern at the declared width. -/
def specEncodeSamples (numChannels bitsPerSample : Nat) (samples : List Sample) : List Nat :=
  samples.flatMap fun sample =>
    (if numChannels = 1 then [sample.Values.1] else [sample.Values.1, sample.Values.2]).flatMap
      fun v => leBytes (toUint v bitsPerSample) (bitsPerSample / 8)

/-- Modelled from the spec: the values that a writer of `numChannels` channels (1 or 2) takes
from a sample list, in the order of emission: sample by sample, channel 0 before
channel 1. -/
def channelValues (numChannels : Nat) (samples : List Sample) : List Int :=
  samples.flatMap fun sample =>
    if numChannels = 1 then [sample.Values.1] else [sample.Values.1, sample.Values.2]

/-- Modelled from the spec: the reading of `n` values from a byte sequence at bit depth `w`:
each value takes `w / 8` bytes, read as a little-endian unsigned pattern and decoded by two's
complement at width `w`. -/
def decodeValues (w : Nat) : Nat → List Nat → List Int
  | 0, _ => []
  | n + 1, bytes =>
    decodeSigned w (leValue (bytes.take (w / 8))) :: decodeValues w n (bytes.drop (w / 8))

/-- The part of the second loop of `main` from `validateEqual` to the opening of the stereo
writer (lines 84 to 92). `lread.Size` is the `Size` of the data handle; the division by a
zero `BlockAlign` is Go's run-time panic. -/
def main.openWriter (buf : IoWriter) (lread rread : Reader) : Except String Writer :=
  match validateEqual lread rread with
  | .error err => .error err
  | .ok lfmt =>
    match lread.Data with
    | .error err => .error err
    | .ok ldata =>
      if lfmt.BlockAlign = 0 then .error "runtime error: integer divide by zero"
      else .ok (NewWriter buf (ldata.Size / lfmt.BlockAlign) 2 lfmt.SampleRate lfmt.BitsPerSample)

/-! ## Outcomes of pair resolution -/

/-- The entry of an output name after one more pair has come for it: the pair itself when
there was no entry, the merge of the entry with the pair otherwise (lines 61 to 65). -/
def main.merged (entry : Option lr) (lrfiles : lr) : Except String lr :=
  match entry with
  | none => .ok lrfiles
  | some outlr => outlr.combine lrfiles

/-- Two outcomes of pair resolution that agree: both are faults, or both are mappings that
give the same pair, or no pair, for every output name. -/
def SameOutcome (r1 r2 : Except String OutMap) : Prop :=
  (∃ e1 e2, r1 = .error e1 ∧ r2 = .error e2) ∨
  (∃ m1 m2, r1 = .ok m1 ∧ r2 = .ok m2 ∧ ∀ k, m1.get k = m2.get k)

/-- A naming conflict between two of the given names: the text of one of the two panics of
`lr.combine`, filled with the two names. -/
def NamingConflict (names : List String) (msg : String) : Prop :=
  ∃ u v, u ∈ names ∧ v ∈ names ∧
    (msg = "mis-matched L files: '" ++ u ++ "' and '" ++ v ++ "'" ∨
      msg = "mis-matched R files: '" ++ u ++ "' and '" ++ v ++ "'")

/-- The fault `msg` is the naming conflict of the two directory entries `u` and `v`: both
are classified as left, or both as right, with the same output name, and `msg` is the text
of the panic of `lr.combine` for that side, filled with the name of `u` and the name of
`v`. -/
def ConflictBetween (u v : FileInfo) (msg : String) : Prop :=
  ∃ k,
    (main.classify u = some (k, ⟨u.Name, ""⟩) ∧ main.classify v = some (k, ⟨v.Name, ""⟩) ∧
      msg = "mis-matched L files: '" ++ u.Name ++ "' and '" ++ v.Name ++ "'") ∨
    (main.classify u = some (k, ⟨"", u.Name⟩) ∧ main.classify v = some (k, ⟨"", v.Name⟩) ∧
      msg = "mis-matched R files: '" ++ u.Name ++ "' and '" ++ v.Name ++ "'")

/-! ## Theorems: `validateEqual` -/

/-- The outcome of `validateEqual` on two decoded readers, one case for each check. -/
theorem validateEqual_decoded (lfmt rfmt : WavFormat) (lsize rsize : Nat) :
    validateEqual (Reader.decoded lfmt lsize) (Reader.decoded rfmt rsize) =
      if lfmt.NumChannels ≠ 1 then .error "L file not mono"
      else if rfmt.NumChannels ≠ 1 then .error "R file not mono"
      else if lfmt.SampleRate ≠ rfmt.SampleRate then
        .error ("Sample rates not equal: L " ++ toString lfmt.SampleRate ++ " R "
          ++ toString rfmt.SampleRate)
      else if lfmt.BitsPerSample ≠ rfmt.BitsPerSample then
        .error ("Bit rates not equal: L " ++ toString lfmt.BitsPerSample ++ " R "
          ++ toString rfmt.BitsPerSample)
      else if lfmt.BlockAlign ≠ rfmt.BlockAlign then
        .error ("Block size not equal: L " ++ toString lfmt.BlockAlign ++ " R "
          ++ toString rfmt.BlockAlign)
      else if lfmt.AudioFormat ≠ rfmt.AudioFormat then
        .error ("Audio format not equal: L " ++ toString lfmt.AudioFormat ++ " R "
          ++ toString rfmt.AudioFormat)
      else if lsize ≠ rsize then
        .error ("Sample counts not equal: L " ++ toString lsize ++ " R " ++ toString rsize)
      else .ok lfmt := rfl

/-- What `validateEqual` returns on two decoded readers is the left descriptor. -/
theorem validateEqual_ok_left {lfmt rfmt f : WavFormat} {lsize rsize : Nat}
    (h : validateEqual (Reader.decoded lfmt lsize) (Reader.decoded rfmt rsize) = .ok f) :
    f = lfmt := by
  rw [validateEqual_decoded] at h
  split_ifs at h
  exact (Except.ok.inj h).symm

/-- Claim C1. On every pair of decoded descriptors and declared data sizes, `validateEqual`
returns a value exactly when both sides are mono and the sample rate, bits per sample, block
align, audio format and data size agree; and its outcome is either the left descriptor,
unchanged, or a fault. -/
theorem validateEqual_ok_iff (lfmt rfmt : WavFormat) (lsize rsize : Nat) :
    ((∃ f, validateEqual (Reader.decoded lfmt lsize) (Reader.decoded rfmt rsize) = .ok f) ↔
      (lfmt.NumChannels = 1 ∧ rfmt.NumChannels = 1 ∧ lfmt.SampleRate = rfmt.SampleRate ∧
        lfmt.BitsPerSample = rfmt.BitsPerSample ∧ lfmt.BlockAlign = rfmt.BlockAlign ∧
        lfmt.AudioFormat = rfmt.AudioFormat ∧ lsize = rsize)) ∧
    (validateEqual (Reader.decoded lfmt lsize) (Reader.decoded rfmt rsize) = .ok lfmt ∨
      ∃ msg, validateEqual (Reader.decoded lfmt lsize) (Reader.decoded rfmt rsize)
        = .error msg) := by
  rw [validateEqual_decoded]
  constructor
  · constructor
    · rintro ⟨f, hf⟩
      split_ifs at hf with h1 h2 h3 h4 h5 h6 h7
      exact ⟨not_not.mp h1, not_not.mp h2, not_not.mp h3, not_not.mp h4, not_not.mp h5,
        not_not.mp h6, not_not.mp h7⟩
    · rintro ⟨h1, h2, h3, h4, h5, h6, h7⟩
      exact ⟨lfmt, by simp [h1, h2, h3, h4, h5, h6, h7]⟩
  · split_ifs
    all_goals first
      | exact Or.inl rfl
      | exact Or.inr ⟨_, rfl⟩

/-- Claim C2, counterexample. Two mono descriptors that differ in `ByteRate` only (88200 on
the left, 0 on the right) are accepted by `validateEqual`, so acceptance does not make the
two descriptors identical in every field. -/
theorem validateEqual_accepts_unequal_byteRate :
    validateEqual (Reader.decoded ⟨1, 1, 44100, 88200, 2, 16⟩ 8)
        (Reader.decoded ⟨1, 1, 44100, 0, 2, 16⟩ 8)
      = .ok ⟨1, 1, 44100, 88200, 2, 16⟩ ∧
    (⟨1, 1, 44100, 88200, 2, 16⟩ : WavFormat) ≠ ⟨1, 1, 44100, 0, 2, 16⟩ := by
  decide

/-- Claim C2, amended. When `validateEqual` succeeds, the two descriptors agree on
`AudioFormat`, `NumChannels`, `SampleRate`, `BlockAlign` and `BitsPerSample`, and the value
returned is the left one; `ByteRate` is not compared, and the descriptors are identical as
soon as their byte rates agree, in particular when both carry the derived byte rate
`SampleRate * BlockAlign` (32 bits). -/
theorem validateEqual_shared_fields (lfmt rfmt f : WavFormat) (lsize rsize : Nat)
    (h : validateEqual (Reader.decoded lfmt lsize) (Reader.decoded rfmt rsize) = .ok f) :
    f = lfmt ∧ lfmt.AudioFormat = rfmt.AudioFormat ∧ lfmt.NumChannels = rfmt.NumChannels ∧
      lfmt.SampleRate = rfmt.SampleRate ∧ lfmt.BlockAlign = rfmt.BlockAlign ∧
      lfmt.BitsPerSample = rfmt.BitsPerSample ∧
      (lfmt.ByteRate = rfmt.ByteRate → lfmt = rfmt) ∧
      (lfmt.ByteRate = lfmt.SampleRate * lfmt.BlockAlign % 2 ^ 32 →
        rfmt.ByteRate = rfmt.SampleRate * rfmt.BlockAlign % 2 ^ 32 → lfmt = rfmt) := by
  rw [validateEqual_decoded] at h
  split_ifs at h with h1 h2 h3 h4 h5 h6 h7
  have h1 := not_not.mp h1
  have h2 := not_not.mp h2
  have h3 := not_not.mp h3
  have h4 := not_not.mp h4
  have h5 := not_not.mp h5
  have h6 := not_not.mp h6
  have hb : lfmt.ByteRate = rfmt.ByteRate → lfmt = rfmt := by
    intro hb
    cases lfmt
    cases rfmt
    simp_all
  refine ⟨(Except.ok.inj h).symm, h6, h1.trans h2.symm, h3, h5, h4, hb, ?_⟩
  intro hl hr
  apply hb
  rw [hl, hr, h3, h5]

/-- Claim C2, witness: two mono 16-bit 44100 Hz descriptors, both with the derived byte
rate 88200. -/
theorem validateEqual_shared_fields_witness :
    validateEqual (Reader.decoded ⟨1, 1, 44100, 88200, 2, 16⟩ 8)
        (Reader.decoded ⟨1, 1, 44100, 44100 * 2, 2, 16⟩ 8)
      = .ok ⟨1, 1, 44100, 88200, 2, 16⟩ ∧
    (⟨1, 1, 44100, 88200, 2, 16⟩ : WavFormat) = ⟨1, 1, 44100, 44100 * 2, 2, 16⟩ :=
  ⟨by decide,
    (validateEqual_shared_fields ⟨1, 1, 44100, 88200, 2, 16⟩ ⟨1, 1, 44100, 44100 * 2, 2, 16⟩
      ⟨1, 1, 44100, 88200, 2, 16⟩ 8 8 (by decide)).2.2.2.2.2.2.2 (by decide) (by decide)⟩

/-- Claim C3, counterexample. With a left side of 2 channels and with one of 3 channels the
fault is the same text, `L file not mono`: the fault of the mono check does not identify the
observed channel count (and with a right side that is not mono it is `R file not mono`). -/
theorem validateEqual_mono_fault_without_values :
    validateEqual (Reader.decoded ⟨1, 2, 44100, 176400, 4, 16⟩ 8)
        (Reader.decoded ⟨1, 1, 44100, 88200, 2, 16⟩ 8) = .error "L file not mono" ∧
    validateEqual (Reader.decoded ⟨1, 3, 44100, 264600, 6, 16⟩ 8)
        (Reader.decoded ⟨1, 1, 44100, 88200, 2, 16⟩ 8) = .error "L file not mono" ∧
    validateEqual (Reader.decoded ⟨1, 1, 44100, 88200, 2, 16⟩ 8)
        (Reader.decoded ⟨1, 2, 44100, 176400, 4, 16⟩ 8) = .error "R file not mono" := by
  decide

/-- Claim C3, amended. The fault of `validateEqual` is the one of the first violated
condition in the order left mono, right mono, sample rate, bits per sample, block align,
audio format tag, data size. The faults of the two mono checks are the fixed texts
`L file not mono` and `R file not mono`; the fault of each of the five comparisons carries
the left and the right observed value of the compared field, in decimal. -/
theorem validateEqual_first_fault (lfmt rfmt : WavFormat) (lsize rsize : Nat) :
    (lfmt.NumChannels ≠ 1 →
      validateEqual (Reader.decoded lfmt lsize) (Reader.decoded rfmt rsize)
        = .error "L file not mono") ∧
    (lfmt.NumChannels = 1 → rfmt.NumChannels ≠ 1 →
      validateEqual (Reader.decoded lfmt lsize) (Reader.decoded rfmt rsize)
        = .error "R file not mono") ∧
    (lfmt.NumChannels = 1 → rfmt.NumChannels = 1 → lfmt.SampleRate ≠ rfmt.SampleRate →
      validateEqual (Reader.decoded lfmt lsize) (Reader.decoded rfmt rsize)
        = .error ("Sample rates not equal: L " ++ toString lfmt.SampleRate ++ " R "
            ++ toString rfmt.SampleRate)) ∧
    (lfmt.NumChannels = 1 → rfmt.NumChannels = 1 → lfmt.SampleRate = rfmt.SampleRate →
      lfmt.BitsPerSample ≠ rfmt.BitsPerSample →
      validateEqual (Reader.decoded lfmt lsize) (Reader.decoded rfmt rsize)
        = .error ("Bit rates not equal: L " ++ toString lfmt.BitsPerSample ++ " R "
            ++ toString rfmt.BitsPerSample)) ∧
    (lfmt.NumChannels = 1 → rfmt.NumChannels = 1 → lfmt.SampleRate = rfmt.SampleRate →
      lfmt.BitsPerSample = rfmt.BitsPerSample → lfmt.BlockAlign ≠ rfmt.BlockAlign →
      validateEqual (Reader.decoded lfmt lsize) (Reader.decoded rfmt rsize)
        = .error ("Block size not equal: L " ++ toString lfmt.BlockAlign ++ " R "
            ++ toString rfmt.BlockAlign)) ∧
    (lfmt.NumChannels = 1 → rfmt.NumChannels = 1 → lfmt.SampleRate = rfmt.SampleRate →
      lfmt.BitsPerSample = rfmt.BitsPerSample → lfmt.BlockAlign = rfmt.BlockAlign →
      lfmt.AudioFormat ≠ rfmt.AudioFormat →
      validateEqual (Reader.decoded lfmt lsize) (Reader.decoded rfmt rsize)
        = .error ("Audio format not equal: L " ++ toString lfmt.AudioFormat ++ " R "
            ++ toString rfmt.AudioFormat)) ∧
    (lfmt.NumChannels = 1 → rfmt.NumChannels = 1 → lfmt.SampleRate = rfmt.SampleRate →
      lfmt.BitsPerSample = rfmt.BitsPerSample → lfmt.BlockAlign = rfmt.BlockAlign →
      lfmt.AudioFormat = rfmt.AudioFormat → lsize ≠ rsize →
      validateEqual (Reader.decoded lfmt lsize) (Reader.decoded rfmt rsize)
        = .error ("Sample counts not equal: L " ++ toString lsize ++ " R "
            ++ toString rsize)) := by
  rw [validateEqual_decoded]
  refine ⟨?_, ?_, ?_, ?_, ?_, ?_, ?_⟩
  · intro h1
    simp [h1]
  · intro h1 h2
    simp [h1, h2]
  · intro h1 h2 h3
    simp [h1, h2, h3]
  · intro h1 h2 h3 h4
    simp [h1, h2, h3, h4]
  · intro h1 h2 h3 h4 h5
    simp [h1, h2, h3, h4, h5]
  · intro h1 h2 h3 h4 h5 h6
    simp [h1, h2, h3, h4, h5, h6]
  · intro h1 h2 h3 h4 h5 h6 h7
    simp [h1, h2, h3, h4, h5, h6, h7]

/-- Claim C3, witness: two mono inputs with rates 44100 and 48000 that differ in every other
compared field as well; the fault is the one of the sample rates. -/
theorem validateEqual_first_fault_witness :
    validateEqual (Reader.decoded ⟨1, 1, 44100, 88200, 2, 16⟩ 8)
        (Reader.decoded ⟨3, 1, 48000, 144000, 3, 24⟩ 12)
      = .error "Sample rates not equal: L 44100 R 48000" :=
  (validateEqual_first_fault ⟨1, 1, 44100, 88200, 2, 16⟩ ⟨3, 1, 48000, 144000, 3, 24⟩ 8
    12).2.2.1 rfl rfl (by decide)

/-! ## Theorems: `lr.combine` -/

/-- Claim C4. `a.combine(b)` fails exactly when the left names of `a` and `b` are both
non-empty or their right names are both non-empty. On a left conflict the fault is
`mis-matched L files: 'a.L' and 'b.L'`; without a left conflict, on a right conflict, it is
`mis-matched R files: 'a.R' and 'b.R'`: the message contains both conflicting names. -/
theorem combine_fails_iff (a b : lr) :
    ((∃ msg, a.combine b = .error msg) ↔
      (a.L ≠ "" ∧ b.L ≠ "") ∨ (a.R ≠ "" ∧ b.R ≠ "")) ∧
    (a.L ≠ "" ∧ b.L ≠ "" →
      a.combine b = .error ("mis-matched L files: '" ++ a.L ++ "' and '" ++ b.L ++ "'")) ∧
    (¬(a.L ≠ "" ∧ b.L ≠ "") → a.R ≠ "" ∧ b.R ≠ "" →
      a.combine b = .error ("mis-matched R files: '" ++ a.R ++ "' and '" ++ b.R ++ "'")) := by
  unfold lr.combine
  refine ⟨?_, ?_, ?_⟩
  · constructor
    · rintro ⟨msg, h⟩
      split_ifs at h with h1 h2 h3
      · exact Or.inl h1
      · exact Or.inr h2
    · rintro (h | h)
      · exact ⟨_, by rw [if_pos h]⟩
      · by_cases h1 : a.L ≠ "" ∧ b.L ≠ ""
        · exact ⟨_, by rw [if_pos h1]⟩
        · exact ⟨_, by rw [if_neg h1, if_pos h]⟩
  · intro h
    rw [if_pos h]
  · intro h1 h2
    rw [if_neg h1, if_pos h2]

/-- Claim C4, witness: a left conflict and a right conflict between concrete pairs. -/
theorem combine_fails_iff_witness :
    lr.combine ⟨"a.L.wav", ""⟩ ⟨"b.L.wav", ""⟩
      = .error "mis-matched L files: 'a.L.wav' and 'b.L.wav'" ∧
    lr.combine ⟨"", "a.R.wav"⟩ ⟨"", "b.R.wav"⟩
      = .error "mis-matched R files: 'a.R.wav' and 'b.R.wav'" :=
  ⟨(combine_fails_iff ⟨"a.L.wav", ""⟩ ⟨"b.L.wav", ""⟩).2.1 (by decide),
    (combine_fails_iff ⟨"", "a.R.wav"⟩ ⟨"", "b.R.wav"⟩).2.2 (by decide) (by decide)⟩

/-- Claim C5. For non-empty names `x` and `y`, merging the left-only pair of `x` with the
right-only pair of `y` succeeds with the complete pair, whichever of the two is the
receiver. -/
theorem combine_left_right (x y : String) (hx : x ≠ "") (hy : y ≠ "") :
    lr.combine ⟨x, ""⟩ ⟨"", y⟩ = .ok ⟨x, y⟩ ∧ lr.combine ⟨"", y⟩ ⟨x, ""⟩ = .ok ⟨x, y⟩ := by
  simp [lr.combine, hx, hy]

/-- Claim C5, witness: the names `song.L.wav` and `song.R.wav`. -/
theorem combine_left_right_witness :
    lr.combine ⟨"song.L.wav", ""⟩ ⟨"", "song.R.wav"⟩ = .ok ⟨"song.L.wav", "song.R.wav"⟩ ∧
    lr.combine ⟨"", "song.R.wav"⟩ ⟨"song.L.wav", ""⟩ = .ok ⟨"song.L.wav", "song.R.wav"⟩ :=
  combine_left_right "song.L.wav" "song.R.wav" (by decide) (by decide)

/-! ## Theorems: the pair resolution loop -/

/-- The characters of the left marker. -/
theorem lPattern_data : lPattern.data = ['.', 'L', '.', 'w', 'a', 'v'] := rfl

/-- The characters of the right marker. -/
theorem rPattern_data : rPattern.data = ['.', 'R', '.', 'w', 'a', 'v'] := rfl

/-- The left marker does not overlap itself: it starts inside `s` and ends inside a
following copy of itself only if it starts `s`. -/
theorem isPrefixOf_l_append_l (s : List Char) (hs : s ≠ [])
    (h : List.isPrefixOf ['.', 'L', '.', 'w', 'a', 'v'] s = false) :
    List.isPrefixOf ['.', 'L', '.', 'w', 'a', 'v'] (s ++ ['.', 'L', '.', 'w', 'a', 'v'])
      = false := by
  rcases s with _ | ⟨c0, _ | ⟨c1, _ | ⟨c2, _ | ⟨c3, _ | ⟨c4, _ | ⟨c5, s⟩⟩⟩⟩⟩⟩ <;>
    first
      | contradiction
      | (simp [List.isPrefixOf] at h ⊢; done)
      | (simp [List.isPrefixOf] at h ⊢; exact h)

/-- The right marker does not overlap itself. -/
theorem isPrefixOf_r_append_r (s : List Char) (hs : s ≠ [])
    (h : List.isPrefixOf ['.', 'R', '.', 'w', 'a', 'v'] s = false) :
    List.isPrefixOf ['.', 'R', '.', 'w', 'a', 'v'] (s ++ ['.', 'R', '.', 'w', 'a', 'v'])
      = false := by
  rcases s with _ | ⟨c0, _ | ⟨c1, _ | ⟨c2, _ | ⟨c3, _ | ⟨c4, _ | ⟨c5, s⟩⟩⟩⟩⟩⟩ <;>
    first
      | contradiction
      | (simp [List.isPrefixOf] at h ⊢; done)
      | (simp [List.isPrefixOf] at h ⊢; exact h)

/-- The left marker does not end inside a following right marker. -/
theorem isPrefixOf_l_append_r (s : List Char)
    (h : List.isPrefixOf ['.', 'L', '.', 'w', 'a', 'v'] s = false) :
    List.isPrefixOf ['.', 'L', '.', 'w', 'a', 'v'] (s ++ ['.', 'R', '.', 'w', 'a', 'v'])
      = false := by
  rcases s with _ | ⟨c0, _ | ⟨c1, _ | ⟨c2, _ | ⟨c3, _ | ⟨c4, _ | ⟨c5, s⟩⟩⟩⟩⟩⟩ <;>
    first
      | (simp [List.isPrefixOf] at h ⊢; done)
      | (simp [List.isPrefixOf] at h ⊢; exact h)

/-- What `indexChars` finds nothing in, it finds no prefix at the head of. -/
theorem indexChars_cons_none {p : List Char} {c : Char} {t : List Char}
    (h : indexChars p (c :: t) = none) :
    p.isPrefixOf (c :: t) = false ∧ indexChars p t = none := by
  simp only [indexChars] at h
  split_ifs at h with hp
  exact ⟨(Bool.not_eq_true _).mp hp, by simpa using h⟩

/-- In a name `b ++ ".L.wav"` whose base `b` has no left marker, the first left marker is
the one at the end. -/
theorem indexChars_l_append_l (b : List Char)
    (h : indexChars ['.', 'L', '.', 'w', 'a', 'v'] b = none) :
    indexChars ['.', 'L', '.', 'w', 'a', 'v'] (b ++ ['.', 'L', '.', 'w', 'a', 'v'])
      = some b.length := by
  induction b with
  | nil => rfl
  | cons c t ih =>
    obtain ⟨hp, ht⟩ := indexChars_cons_none h
    have hp' := isPrefixOf_l_append_l (c :: t) (by simp) hp
    simp only [List.cons_append] at hp' ⊢
    simp only [indexChars, hp', ih ht]
    simp

/-- In a name `b ++ ".R.wav"` whose base `b` has no right marker, the first right marker is
the one at the end. -/
theorem indexChars_r_append_r (b : List Char)
    (h : indexChars ['.', 'R', '.', 'w', 'a', 'v'] b = none) :
    indexChars ['.', 'R', '.', 'w', 'a', 'v'] (b ++ ['.', 'R', '.', 'w', 'a', 'v'])
      = some b.length := by
  induction b with
  | nil => rfl
  | cons c t ih =>
    obtain ⟨hp, ht⟩ := indexChars_cons_none h
    have hp' := isPrefixOf_r_append_r (c :: t) (by simp) hp
    simp only [List.cons_append] at hp' ⊢
    simp only [indexChars, hp', ih ht]
    simp

/-- A name `b ++ ".R.wav"` whose base `b` has no left marker has no left marker. -/
theorem indexChars_l_append_r (b : List Char)
    (h : indexChars ['.', 'L', '.', 'w', 'a', 'v'] b = none) :
    indexChars ['.', 'L', '.', 'w', 'a', 'v'] (b ++ ['.', 'R', '.', 'w', 'a', 'v'])
      = none := by
  induction b with
  | nil => rfl
  | cons c t ih =>
    obtain ⟨hp, ht⟩ := indexChars_cons_none h
    have hp' := isPrefixOf_l_append_r (c :: t) hp
    simp only [List.cons_append] at hp' ⊢
    simp only [indexChars, hp', ih ht]
    simp

/-- Absence of a marker, in terms of the character search. -/
theorem contains_eq_false_iff (s p : String) :
    strings.Contains s p = false ↔ indexChars p.data s.data = none := by
  simp [strings.Contains, strings.Index]

/-- The extension of a name that ends in `.L.wav` is `.wav`. -/
theorem ext_append_l (b : String) : filepath.Ext (b ++ ".L.wav") = ".wav" := by
  simp [filepath.Ext, extChars]

/-- The extension of a name that ends in `.R.wav` is `.wav`. -/
theorem ext_append_r (b : String) : filepath.Ext (b ++ ".R.wav") = ".wav" := by
  simp [filepath.Ext, extChars]

/-- A left-marked name contains the left marker. -/
theorem contains_l_append_l (b : String) (hL : strings.Contains b lPattern = false) :
    strings.Contains (b ++ ".L.wav") lPattern = true := by
  rw [contains_eq_false_iff, lPattern_data] at hL
  have h := indexChars_l_append_l b.data hL
  simp only [strings.Contains, strings.Index, String.data_append, lPattern_data]
  rw [h]
  rfl

/-- A right-marked name whose base has no left marker contains no left marker. -/
theorem contains_l_append_r (b : String) (hL : strings.Contains b lPattern = false) :
    strings.Contains (b ++ ".R.wav") lPattern = false := by
  rw [contains_eq_false_iff, lPattern_data] at hL
  have h := indexChars_l_append_r b.data hL
  rw [contains_eq_false_iff, String.data_append, lPattern_data]
  exact h

/-- A right-marked name contains the right marker. -/
theorem contains_r_append_r (b : String) (hR : strings.Contains b rPattern = false) :
    strings.Contains (b ++ ".R.wav") rPattern = true := by
  rw [contains_eq_false_iff, rPattern_data] at hR
  have h := indexChars_r_append_r b.data hR
  simp only [strings.Contains, strings.Index, String.data_append, rPattern_data]
  rw [h]
  rfl

/-- Replacing the first left marker of `b ++ ".L.wav"` by `.wav` gives `b ++ ".wav"`, when
`b` has no left marker. -/
theorem replace_l_append_l (b : String) (hL : strings.Contains b lPattern = false) :
    strings.Replace (b ++ ".L.wav") lPattern stReplace 1 = b ++ ".wav" := by
  rw [contains_eq_false_iff, lPattern_data] at hL
  have h := indexChars_l_append_l b.data hL
  have h1 : ¬(lPattern = stReplace ∨ (1 : Int) = 0) := by decide
  have h2 : ¬(lPattern = "") := by decide
  simp only [strings.Replace, if_neg h1, if_neg h2, String.data_append, lPattern_data]
  apply String.ext
  simp [replaceChars, h, stReplace]

/-- Replacing the first right marker of `b ++ ".R.wav"` by `.wav` gives `b ++ ".wav"`, when
`b` has no right marker. -/
theorem replace_r_append_r (b : String) (hR : strings.Contains b rPattern = false) :
    strings.Replace (b ++ ".R.wav") rPattern stReplace 1 = b ++ ".wav" := by
  rw [contains_eq_false_iff, rPattern_data] at hR
  have h := indexChars_r_append_r b.data hR
  have h1 : ¬(rPattern = stReplace ∨ (1 : Int) = 0) := by decide
  have h2 : ¬(rPattern = "") := by decide
  simp only [strings.Replace, if_neg h1, if_neg h2, String.data_append, rPattern_data]
  apply String.ext
  simp [replaceChars, h, stReplace]

/-- A string that ends in `.wav`, `.L.wav` or `.R.wav` is not empty. -/
theorem append_ne_empty (b s : String) (hs : s ≠ "") : b ++ s ≠ "" := by
  intro h
  apply hs
  have h' := congrArg String.data h
  rw [String.data_append] at h'
  apply String.ext
  exact (List.append_eq_nil.mp h').2

/-- Claim C6. For a base name `b` that contains neither marker, the pair resolution loop on
the two names `b ++ ".L.wav"` and `b ++ ".R.wav"`, in either order, ends with a mapping of
exactly one entry: the key `b ++ ".wav"` with the pair of the two names. -/
theorem resolve_pair (b : String) (hL : strings.Contains b lPattern = false)
    (hR : strings.Contains b rPattern = false) :
    main.resolve (plainFiles [b ++ ".L.wav", b ++ ".R.wav"])
      = .ok [(b ++ ".wav", ⟨b ++ ".L.wav", b ++ ".R.wav"⟩)] ∧
    main.resolve (plainFiles [b ++ ".R.wav", b ++ ".L.wav"])
      = .ok [(b ++ ".wav", ⟨b ++ ".L.wav", b ++ ".R.wav"⟩)] := by
  have hw : b ++ ".wav" ≠ "" := append_ne_empty b ".wav" (by decide)
  have hl : b ++ ".L.wav" ≠ "" := append_ne_empty b ".L.wav" (by decide)
  have hr : b ++ ".R.wav" ≠ "" := append_ne_empty b ".R.wav" (by decide)
  have stepL : ∀ outs, main.pairStep outs ⟨b ++ ".L.wav", false⟩ =
      match outs.get (b ++ ".wav") with
      | some outlr =>
        match outlr.combine ⟨b ++ ".L.wav", ""⟩ with
        | .error err => .error err
        | .ok both => .ok (outs.set (b ++ ".wav") both)
      | none => .ok (outs.set (b ++ ".wav") ⟨b ++ ".L.wav", ""⟩) := by
    intro outs
    simp [main.pairStep, ext_append_l, contains_l_append_l b hL, replace_l_append_l b hL, hw]
  have stepR : ∀ outs, main.pairStep outs ⟨b ++ ".R.wav", false⟩ =
      match outs.get (b ++ ".wav") with
      | some outlr =>
        match outlr.combine ⟨"", b ++ ".R.wav"⟩ with
        | .error err => .error err
        | .ok both => .ok (outs.set (b ++ ".wav") both)
      | none => .ok (outs.set (b ++ ".wav") ⟨"", b ++ ".R.wav"⟩) := by
    intro outs
    simp [main.pairStep, ext_append_r, contains_l_append_r b hL, contains_r_append_r b hR,
      replace_r_append_r b hR, hw]
  constructor
  · simp [main.resolve, plainFiles, main.pairLoop, stepL, stepR, OutMap.get, OutMap.set,
      lr.combine, hl, hr]
  · simp [main.resolve, plainFiles, main.pairLoop, stepL, stepR, OutMap.get, OutMap.set,
      lr.combine, hl, hr]

/-- Claim C6, witness: the base name `song`. -/
theorem resolve_pair_witness :
    main.resolve (plainFiles ["song.L.wav", "song.R.wav"])
      = .ok [("song.wav", ⟨"song.L.wav", "song.R.wav"⟩)] ∧
    main.resolve (plainFiles ["song.R.wav", "song.L.wav"])
      = .ok [("song.wav", ⟨"song.L.wav", "song.R.wav"⟩)] :=
  resolve_pair "song" (by decide) (by decide)

/-- An entry of the mapping after an assignment is the assigned one or an earlier one. -/
theorem OutMap.mem_set {m : OutMap} {k : String} {v : lr} {e : String × lr}
    (h : e ∈ OutMap.set m k v) : e = (k, v) ∨ e ∈ m := by
  induction m with
  | nil => simpa [OutMap.set] using h
  | cons x rest ih =>
    obtain ⟨k', v'⟩ := x
    simp only [OutMap.set] at h
    split_ifs at h with hk
    · rcases List.mem_cons.mp h with h | h
      · exact Or.inl h
      · exact Or.inr (List.mem_cons_of_mem _ h)
    · rcases List.mem_cons.mp h with h | h
      · exact Or.inr (h ▸ List.mem_cons_self _ _)
      · rcases ih h with h | h
        · exact Or.inl h
        · exact Or.inr (List.mem_cons_of_mem _ h)

/-- A value found by a lookup is the value of an entry. -/
theorem OutMap.mem_of_get {m : OutMap} {k : String} {v : lr} (h : OutMap.get m k = some v) :
    ∃ k', (k', v) ∈ m := by
  induction m with
  | nil => simp [OutMap.get] at h
  | cons x rest ih =>
    obtain ⟨k', v'⟩ := x
    simp only [OutMap.get] at h
    split_ifs at h with hk
    · exact ⟨k', by simp [Option.some.inj h]⟩
    · obtain ⟨k'', hm⟩ := ih h
      exact ⟨k'', List.mem_cons_of_mem _ hm⟩

/-- A successful merge keeps a non-empty side of the receiver, or fills its empty left
side and keeps its right side. -/
theorem combine_side_nonempty {a b c : lr} (h : a.combine b = .ok c)
    (ha : a.L ≠ "" ∨ a.R ≠ "") : c.L ≠ "" ∨ c.R ≠ "" := by
  unfold lr.combine at h
  split_ifs at h with h1 h2 h3
  · have hc := (Except.ok.inj h).symm
    subst hc
    rcases ha with ha | ha
    · exact absurd h3 ha
    · exact Or.inr ha
  · have hc := (Except.ok.inj h).symm
    subst hc
    exact Or.inl h3

/-- A name with a marker in it is not empty. -/
theorem ne_empty_of_contains {s p : String} (hp : p ≠ "")
    (h : strings.Contains s p = true) : s ≠ "" := by
  intro hs
  subst hs
  apply hp
  apply String.ext
  cases hd : p.data with
  | nil => rfl
  | cons c t => simp [strings.Contains, strings.Index, indexChars, hd, List.isPrefixOf] at h

/-- One turn of the resolution loop keeps every pair of the mapping one-sided at least. -/
theorem pairStep_side_nonempty {outs outs' : OutMap} {f : FileInfo}
    (h : main.pairStep outs f = .ok outs')
    (inv : ∀ e ∈ outs, e.2.L ≠ "" ∨ e.2.R ≠ "") :
    ∀ e ∈ outs', e.2.L ≠ "" ∨ e.2.R ≠ "" := by
  unfold main.pairStep at h
  simp only at h
  split_ifs at h with h0 hl hs hr hs hs
  · exact Except.ok.inj h ▸ inv
  · exact Except.ok.inj h ▸ inv
  · have hn : f.Name ≠ "" := ne_empty_of_contains (by decide) hl
    split at h
    · rename_i outlr hget
      split at h
      · exact absurd h (by simp)
      · rename_i both hboth
        obtain ⟨k', hm⟩ := OutMap.mem_of_get hget
        have hb := combine_side_nonempty hboth (inv _ hm)
        intro e he
        rw [← Except.ok.inj h] at he
        rcases OutMap.mem_set he with he | he
        · rw [he]
          exact hb
        · exact inv e he
    · intro e he
      rw [← Except.ok.inj h] at he
      rcases OutMap.mem_set he with he | he
      · rw [he]
        exact Or.inl hn
      · exact inv e he
  · exact Except.ok.inj h ▸ inv
  · have hn : f.Name ≠ "" := ne_empty_of_contains (by decide) hr
    split at h
    · rename_i outlr hget
      split at h
      · exact absurd h (by simp)
      · rename_i both hboth
        obtain ⟨k', hm⟩ := OutMap.mem_of_get hget
        have hb := combine_side_nonempty hboth (inv _ hm)
        intro e he
        rw [← Except.ok.inj h] at he
        rcases OutMap.mem_set he with he | he
        · rw [he]
          exact hb
        · exact inv e he
    · intro e he
      rw [← Except.ok.inj h] at he
      rcases OutMap.mem_set he with he | he
      · rw [he]
        exact Or.inr hn
      · exact inv e he
  · exact Except.ok.inj h ▸ inv
  · exact absurd hs (by simp)

/-- The resolution loop keeps every pair of the mapping one-sided at least. -/
theorem pairLoop_side_nonempty (files : List FileInfo) :
    ∀ (outs outs' : OutMap), main.pairLoop files outs = .ok outs' →
      (∀ e ∈ outs, e.2.L ≠ "" ∨ e.2.R ≠ "") → ∀ e ∈ outs', e.2.L ≠ "" ∨ e.2.R ≠ "" := by
  induction files with
  | nil =>
    intro outs outs' h inv
    exact Except.ok.inj h ▸ inv
  | cons f rest ih =>
    intro outs outs' h inv
    simp only [main.pairLoop] at h
    split at h
    · exact absurd h (by simp)
    · rename_i mid hmid
      exact ih mid outs' h (pairStep_side_nonempty hmid inv)

/-- Claim C7, counterexample. On the single name `song.L.wav` pair resolution succeeds, and
the mapping it hands to the second loop of `main` holds the pair of `song.wav` with an
empty right name: the orphan is neither flagged nor left out. -/
theorem resolve_keeps_orphan :
    main.resolve (plainFiles ["song.L.wav"]) = .ok [("song.wav", ⟨"song.L.wav", ""⟩)] ∧
    ("song.wav", (⟨"song.L.wav", ""⟩ : lr)) ∈
      main.pairsToMerge [("song.wav", ⟨"song.L.wav", ""⟩)] := by
  decide

/-- Claim C7, amended. For every list of directory entries on which pair resolution does
not fail, every pair that the second loop of `main` works on has its left or its right
source name non-empty; a pair with one side unset stays in the mapping. -/
theorem resolve_side_nonempty (files : List FileInfo) (outs : OutMap)
    (h : main.resolve files = .ok outs) :
    ∀ e ∈ main.pairsToMerge outs, e.2.L ≠ "" ∨ e.2.R ≠ "" :=
  pairLoop_side_nonempty files [] outs h (by simp)

/-- Claim C7, witness: the names `a.L.wav`, `a.R.wav` and `b.R.wav`, and the pair of
`b.wav` in the mapping they resolve to. -/
theorem resolve_side_nonempty_witness :
    main.resolve (plainFiles ["a.L.wav", "a.R.wav", "b.R.wav"])
      = .ok [("a.wav", ⟨"a.L.wav", "a.R.wav"⟩), ("b.wav", ⟨"", "b.R.wav"⟩)] ∧
    ((⟨"", "b.R.wav"⟩ : lr).L ≠ "" ∨ (⟨"", "b.R.wav"⟩ : lr).R ≠ "") :=
  ⟨by decide,
    resolve_side_nonempty (plainFiles ["a.L.wav", "a.R.wav", "b.R.wav"])
      [("a.wav", ⟨"a.L.wav", "a.R.wav"⟩), ("b.wav", ⟨"", "b.R.wav"⟩)] (by decide)
      ("b.wav", ⟨"", "b.R.wav"⟩) (by decide)⟩

/-! ## Theorems: the sample merge loop -/

/-- Sequencing after a successful step, in `Except`. -/
theorem Except.ok_bind {ε α β : Type} (a : α) (f : α → Except ε β) :
    (Except.ok a >>= f) = f a := rfl

/-- After `n` turns the merge loop has put the right values into the first `n` samples and
left the others as they were. -/
theorem mergeLoop_upto (lsamps rsamps : List Sample) (hlen : lsamps.length ≤ rsamps.length) :
    ∀ n, n ≤ lsamps.length →
      ∃ cur, (List.range n).foldlM (main.mergeStep rsamps) lsamps = .ok cur ∧
        cur.length = lsamps.length ∧
        ∀ j, cur[j]? =
          if j < n then
            (List.zipWith (fun l r => ({ l with Values := (l.Values.1, r.Values.1) } : Sample))
              lsamps rsamps)[j]?
          else lsamps[j]? := by
  intro n
  induction n with
  | zero =>
    intro _
    exact ⟨lsamps, rfl, rfl, by simp⟩
  | succ n ih =>
    intro hn
    obtain ⟨cur, hcur, hl, hget⟩ := ih (by omega)
    have hnl : n < lsamps.length := by omega
    have hnr : n < rsamps.length := by omega
    have hc : cur[n]? = some lsamps[n] := by
      rw [hget n]
      simp [hnl]
    have hr : rsamps[n]? = some rsamps[n] := by simp [hnr]
    refine ⟨cur.set n { lsamps[n] with Values := (lsamps[n].Values.1, rsamps[n].Values.1) },
      ?_, by simp [hl], ?_⟩
    · have hs : main.mergeStep rsamps cur n = .ok (cur.set n
          { lsamps[n] with Values := (lsamps[n].Values.1, rsamps[n].Values.1) }) := by
        simp only [main.mergeStep, List.get?_eq_getElem?, hc, hr]
      rw [List.range_succ, List.foldlM_append, hcur, Except.ok_bind, List.foldlM_cons, hs,
        Except.ok_bind, List.foldlM_nil]
      rfl
    · intro j
      by_cases hj : j = n
      · subst hj
        simp [List.getElem?_set, hl, hnl, hnr, List.getElem?_zipWith]
      · rw [List.getElem?_set_ne (Ne.symm hj), hget j]
        have : (j < n + 1) = (j < n) := by
          apply propext
          omega
        simp only [this]

/-- On a right sequence at least as long as the left one, the merge loop ends with the
frames made of the first value slots of the two sequences. -/
theorem mergeLoop_eq_zipWith (lsamps rsamps : List Sample)
    (hlen : lsamps.length ≤ rsamps.length) :
    main.mergeLoop lsamps rsamps =
      .ok (List.zipWith (fun l r => ({ l with Values := (l.Values.1, r.Values.1) } : Sample))
        lsamps rsamps) := by
  obtain ⟨cur, hcur, hl, hget⟩ := mergeLoop_upto lsamps rsamps hlen lsamps.length le_rfl
  rw [main.mergeLoop, hcur]
  congr 1
  apply List.ext_getElem?
  intro j
  rw [hget j]
  split_ifs with hj
  · rfl
  · have h1 : lsamps[j]? = none := List.getElem?_eq_none (by omega)
    rw [h1, List.getElem?_zipWith, h1]

/-- Claim C8. For two sample sequences `left` and `right` of equal length, the merge loop
ends with a sequence of that length whose frame `i` has the value `left[i].Values[0]` in
slot 0 and the value `right[i].Values[0]` in slot 1, for every index `i`. -/
theorem mergeLoop_frames (left right : List Sample) (h : left.length = right.length) :
    ∃ out, main.mergeLoop left right = .ok out ∧ out.length = left.length ∧
      ∀ (i : Nat) (l r : Sample), left[i]? = some l → right[i]? = some r →
        out[i]? = some (⟨(l.Values.1, r.Values.1)⟩ : Sample) := by
  refine ⟨_, mergeLoop_eq_zipWith left right (by omega), by simp [h], ?_⟩
  intro i l r hl hr
  simp [List.getElem?_zipWith, hl, hr]

/-- Claim C8, witness: `[L0, L1]` and `[R0, R1]` with `L0 = 10`, `L1 = -20`, `R0 = 30`,
`R1 = 40` give `[(L0, R0), (L1, R1)]`. -/
theorem mergeLoop_frames_witness :
    ∃ out, main.mergeLoop [⟨(10, 0)⟩, ⟨(-20, 0)⟩] [⟨(30, 0)⟩, ⟨(40, 0)⟩] = .ok out ∧
      out.length = 2 ∧
      ∀ (i : Nat) (l r : Sample), [(⟨(10, 0)⟩ : Sample), ⟨(-20, 0)⟩][i]? = some l →
        [(⟨(30, 0)⟩ : Sample), ⟨(40, 0)⟩][i]? = some r →
        out[i]? = some (⟨(l.Values.1, r.Values.1)⟩ : Sample) :=
  mergeLoop_frames [⟨(10, 0)⟩, ⟨(-20, 0)⟩] [⟨(30, 0)⟩, ⟨(40, 0)⟩] rfl

/-! ## Theorems: the writer -/

/-- Masking with `math.MaxUint8` and converting to `uint8` keeps the low 8 bits. -/
theorem rawByte_eq (x : Nat) : (x &&& 255) % 256 = x % 256 := by
  rw [show (255 : Nat) = 2 ^ 8 - 1 from rfl, Nat.and_pow_two_sub_one_eq_mod]
  omega

/-- The buffer after the fill loop, at widths 8, 16, 24 and 32. -/
theorem setRaw_widths (u : Nat) :
    setRaw u 8 (List.replicate (8 / 8) 0) = .ok [u % 256] ∧
    setRaw u 16 (List.replicate (16 / 8) 0) = .ok [u % 256, u / 256 % 256] ∧
    setRaw u 24 (List.replicate (24 / 8) 0) = .ok [u % 256, u / 256 % 256, u / 65536 % 256] ∧
    setRaw u 32 (List.replicate (32 / 8) 0)
      = .ok [u % 256, u / 256 % 256, u / 65536 % 256, u / 16777216 % 256] := by
  refine ⟨?_, ?_, ?_, ?_⟩ <;>
    simp [setRaw, List.range_succ, List.replicate, rawByte_eq, Except.ok_bind,
      List.foldlM_cons, List.foldlM_nil, Nat.shiftRight_eq_div_pow]

/-- The bytes that a mono writer over a memory buffer emits for one sample are the buffer
`raw` as the fill loop leaves it for the value of slot 0. -/
theorem writeSamples_mono_one (numSamples sampleRate w : Nat) (v x : Int) (bytes : List Nat)
    (h : setRaw (toUint v w) w (List.replicate (w / 8) 0) = .ok bytes) :
    ∃ wr, (NewWriter IoWriter.buffer numSamples 1 sampleRate w).WriteSamples [⟨(v, x)⟩]
        = .ok wr ∧ wr.written = bytes := by
  simp [Writer.WriteSamples, NewWriter, writeValue, Sample.value, IoWriter.Write,
    IoWriter.buffer, h, Except.ok_bind, List.foldlM_cons, List.foldlM_nil, List.range_succ,
    Writer.written]

/-! ## Theorems: from the validated inputs to the stereo writer -/

/-- Claim C10, counterexample. Two mono 16-bit 44100 Hz inputs of block align 2 and of data
size `2 ^ 31` are accepted; the sample count is `2 ^ 30`, and the data chunk that the stereo
writer declares has length 0, not `2 ^ 30 * 4`: the 32-bit product wraps around. -/
theorem openWriter_dataSize_wraps :
    (main.openWriter IoWriter.buffer (Reader.decoded ⟨1, 1, 44100, 88200, 2, 16⟩ 2147483648)
        (Reader.decoded ⟨1, 1, 44100, 88200, 2, 16⟩ 2147483648)).toOption.map
      (fun w => w.riff.chunks) = some [("fmt ", 16), ("data", 0)] ∧
    2147483648 / 2 * 4 = 4294967296 := by
  decide

/-- Claim C10, amended. For two mono 16-bit 44100 Hz inputs accepted by `validateEqual`, of
block align 2 and of equal data size `S` below `2 ^ 31`, the stereo writer that `main` opens
has a format description with `NumChannels = 2`, `SampleRate = 44100`, `BitsPerSample = 16`
and `BlockAlign = 4`, and declares a data chunk of `sampleCount * 4` bytes, where
`sampleCount = S / 2`. -/
theorem openWriter_stereo (buf : IoWriter) (lfmt rfmt f : WavFormat) (S : Nat)
    (hacc : validateEqual (Reader.decoded lfmt S) (Reader.decoded rfmt S) = .ok f)
    (hrate : lfmt.SampleRate = 44100) (hbits : lfmt.BitsPerSample = 16)
    (halign : lfmt.BlockAlign = 2) (hS : S < 2 ^ 31) :
    ∃ w, main.openWriter buf (Reader.decoded lfmt S) (Reader.decoded rfmt S) = .ok w ∧
      w.Format.NumChannels = 2 ∧ w.Format.SampleRate = 44100 ∧
      w.Format.BitsPerSample = 16 ∧ w.Format.BlockAlign = 4 ∧
      w.riff.chunks = [("fmt ", 16), ("data", S / 2 * 4)] := by
  have hf : f = lfmt := validateEqual_ok_left hacc
  subst hf
  have hd : S / 2 * (2 * 16 % 2 ^ 16 / 8) % 2 ^ 32 = S / 2 * 4 := by
    norm_num at hS ⊢
    omega
  refine ⟨NewWriter buf (S / 2) 2 44100 16, ?_, rfl, rfl, rfl, rfl, ?_⟩
  · unfold main.openWriter
    rw [hacc]
    simp [Reader.decoded, hrate, hbits, halign]
  · simp only [NewWriter, hd]

/-- Claim C10, witness: two inputs of one second each, with 88200 bytes of data. -/
theorem openWriter_stereo_witness :
    ∃ w, main.openWriter IoWriter.buffer (Reader.decoded ⟨1, 1, 44100, 88200, 2, 16⟩ 88200)
        (Reader.decoded ⟨1, 1, 44100, 88200, 2, 16⟩ 88200) = .ok w ∧
      w.Format.NumChannels = 2 ∧ w.Format.SampleRate = 44100 ∧
      w.Format.BitsPerSample = 16 ∧ w.Format.BlockAlign = 4 ∧
      w.riff.chunks = [("fmt ", 16), ("data", 88200 / 2 * 4)] :=
  openWriter_stereo IoWriter.buffer ⟨1, 1, 44100, 88200, 2, 16⟩ ⟨1, 1, 44100, 88200, 2, 16⟩
    ⟨1, 1, 44100, 88200, 2, 16⟩ 88200 (by decide) rfl rfl rfl (by decide)

/-! ## Theorems: `NewWriter` and `toUint` -/

/-- Claim C11, counterexample. For `2 ^ 30` samples of 2 channels at 16 bits the block align
is 4 and the data length `sampleCount * BlockAlign` is `2 ^ 32`; the 32-bit product wraps,
the data chunk is declared with length 0 and the container with size 36. -/
theorem newWriter_sizes_wrap :
    (NewWriter IoWriter.buffer 1073741824 2 44100 16).Format.BlockAlign = 4 ∧
    (NewWriter IoWriter.buffer 1073741824 2 44100 16).riff.chunks
      = [("fmt ", 16), ("data", 0)] ∧
    (NewWriter IoWriter.buffer 1073741824 2 44100 16).riff.fileSize = 36 ∧
    1073741824 * 4 = 4294967296 := by
  decide

/-- Claim C11, amended. When the products fit their types (`numChannels * bitsPerSample`
below `2 ^ 16`, `sampleRate * BlockAlign` and `36 + sampleCount * BlockAlign` below
`2 ^ 32`), the format of the writer has the PCM tag and the given channel count, sample rate
and bits per sample, with `BlockAlign = numChannels * bitsPerSample / 8` and
`ByteRate = sampleRate * BlockAlign`; the `fmt ` chunk is declared with length 16, the `data`
chunk with length `sampleCount * BlockAlign`, and the container with size 36 plus that
length. -/
theorem newWriter_format (w : IoWriter)
    (numSamples numChannels sampleRate bitsPerSample : Nat)
    (h16 : numChannels * bitsPerSample < 2 ^ 16)
    (h32 : sampleRate * (numChannels * bitsPerSample / 8) < 2 ^ 32)
    (hsz : 36 + numSamples * (numChannels * bitsPerSample / 8) < 2 ^ 32) :
    (NewWriter w numSamples numChannels sampleRate bitsPerSample).Format =
      ⟨AudioFormatPCM, numChannels, sampleRate,
        sampleRate * (numChannels * bitsPerSample / 8), numChannels * bitsPerSample / 8,
        bitsPerSample⟩ ∧
    (NewWriter w numSamples numChannels sampleRate bitsPerSample).riff.fileType = "WAVE" ∧
    (NewWriter w numSamples numChannels sampleRate bitsPerSample).riff.chunks =
      [("fmt ", 16), ("data", numSamples * (numChannels * bitsPerSample / 8))] ∧
    (NewWriter w numSamples numChannels sampleRate bitsPerSample).riff.fileSize =
      36 + numSamples * (numChannels * bitsPerSample / 8) := by
  have e16 : numChannels * bitsPerSample % 2 ^ 16 = numChannels * bitsPerSample :=
    Nat.mod_eq_of_lt h16
  have hd : numSamples * (numChannels * bitsPerSample / 8) < 2 ^ 32 := by omega
  refine ⟨?_, ?_, ?_, ?_⟩ <;>
    simp only [NewWriter, e16, Nat.mod_eq_of_lt h32, Nat.mod_eq_of_lt hd]
  omega

/-- Claim C11, witness: 44100 frames of CD audio (2 channels, 44100 Hz, 16 bits). -/
theorem newWriter_format_witness :
    (NewWriter IoWriter.buffer 44100 2 44100 16).Format = ⟨1, 2, 44100, 176400, 4, 16⟩ ∧
    (NewWriter IoWriter.buffer 44100 2 44100 16).riff.chunks
      = [("fmt ", 16), ("data", 176400)] ∧
    (NewWriter IoWriter.buffer 44100 2 44100 16).riff.fileSize = 176436 :=
  have h := newWriter_format IoWriter.buffer 44100 2 44100 16 (by decide) (by decide)
    (by decide)
  ⟨h.1, h.2.2.1, h.2.2.2⟩

/-- Claim C14, counterexample. At width 8 the conversion is `uint(value)` without narrowing:
for the value `-1` of the signed 8-bit range it gives `2 ^ 64 - 1`, which is neither
`2 ^ 8 + (-1) = 255` nor below `2 ^ 8`. -/
theorem toUint_8_negative :
    toUint (-1) 8 = 18446744073709551615 ∧ ¬(toUint (-1) 8 < 2 ^ 8) := by
  decide

/-- Claim C14, amended. At the widths 16, 24 and 32 and for `v` in the signed range of the
width, `toUint v w` is the unsigned pattern of `v` at that width: `v` for `v ≥ 0`, `2 ^ w + v`
for `v < 0`, and below `2 ^ w`. At width 8 and for `v` in the signed 8-bit range it is `v`
for `v ≥ 0` and `2 ^ 64 + v` for `v < 0`, whose low 8 bits are the 8-bit pattern of `v`. -/
theorem toUint_pattern (w : Nat) (v : Int) (hw : w = 8 ∨ w = 16 ∨ w = 24 ∨ w = 32)
    (hlo : -2 ^ (w - 1) ≤ v) (hhi : v ≤ 2 ^ (w - 1) - 1) :
    (w ≠ 8 →
      (toUint v w : Int) = (if 0 ≤ v then v else 2 ^ w + v) ∧ toUint v w < 2 ^ w) ∧
    (w = 8 →
      (toUint v w : Int) = (if 0 ≤ v then v else 2 ^ 64 + v) ∧
      (toUint v w % 2 ^ 8 : Int) = (if 0 ≤ v then v else 2 ^ 8 + v)) := by
  rcases hw with hw | hw | hw | hw <;> subst hw <;>
    simp only [toUint] <;> norm_num at hlo hhi ⊢ <;> split_ifs <;> omega

/-- Claim C14, witness: the value `-2` at width 24, of pattern `0xFFFFFE`. -/
theorem toUint_pattern_witness :
    (toUint (-2) 24 : Int) = (if (0 : Int) ≤ -2 then -2 else 2 ^ 24 + -2) ∧
      toUint (-2) 24 < 2 ^ 24 :=
  (toUint_pattern 24 (-2) (by decide) (by decide) (by decide)).1 (by decide)

/-! ## Theorems: the format invariant and the unequal merge -/

/-- Claim C15, counterexample. Two mono descriptors of 12 bits per sample stored in 2 bytes
(block align 2) are accepted, although 12 is not a multiple of 8 and 2 is not `1 * 12 / 8`;
and two descriptors of block align 0 are accepted, after which the sample count of `main`
is a division by zero. -/
theorem validateEqual_accepts_broken_invariant :
    validateEqual (Reader.decoded ⟨1, 1, 44100, 88200, 2, 12⟩ 8)
        (Reader.decoded ⟨1, 1, 44100, 88200, 2, 12⟩ 8)
      = .ok ⟨1, 1, 44100, 88200, 2, 12⟩ ∧
    12 % 8 = 4 ∧ 1 * 12 / 8 = 1 ∧
    validateEqual (Reader.decoded ⟨1, 1, 44100, 0, 0, 16⟩ 8)
        (Reader.decoded ⟨1, 1, 44100, 0, 0, 16⟩ 8)
      = .ok ⟨1, 1, 44100, 0, 0, 16⟩ ∧
    (main.openWriter IoWriter.buffer (Reader.decoded ⟨1, 1, 44100, 0, 0, 16⟩ 8)
        (Reader.decoded ⟨1, 1, 44100, 0, 0, 16⟩ 8)).toOption.isNone = true := by
  decide

/-- Claim C15, amended. `validateEqual` does not test the format invariant. For a descriptor
that it accepts and that does satisfy the invariant (`BitsPerSample` a multiple of 8,
`BlockAlign = NumChannels * BitsPerSample / 8`) with `BitsPerSample` not zero, the block
align is `BitsPerSample / 8` and not zero, and `main` computes the sample count
`Size / BlockAlign` and opens the writer with it. -/
theorem openWriter_defined (buf : IoWriter) (lfmt rfmt f : WavFormat) (lsize rsize : Nat)
    (hacc : validateEqual (Reader.decoded lfmt lsize) (Reader.decoded rfmt rsize) = .ok f)
    (hdiv : f.BitsPerSample % 8 = 0)
    (halign : f.BlockAlign = f.NumChannels * f.BitsPerSample / 8)
    (hpos : f.BitsPerSample ≠ 0) :
    f.BlockAlign = f.BitsPerSample / 8 ∧ f.BlockAlign ≠ 0 ∧
    main.openWriter buf (Reader.decoded lfmt lsize) (Reader.decoded rfmt rsize)
      = .ok (NewWriter buf (lsize / f.BlockAlign) 2 f.SampleRate f.BitsPerSample) := by
  have hf : f = lfmt := validateEqual_ok_left hacc
  subst hf
  have hmono : f.NumChannels = 1 := by
    rw [validateEqual_decoded] at hacc
    split_ifs at hacc with h1
    exact not_not.mp h1
  have h1 : f.BlockAlign = f.BitsPerSample / 8 := by rw [halign, hmono, Nat.one_mul]
  have h2 : f.BlockAlign ≠ 0 := by omega
  refine ⟨h1, h2, ?_⟩
  unfold main.openWriter
  rw [hacc]
  simp [Reader.decoded, h2]

/-- Claim C15, witness: two mono 24-bit descriptors of block align 3 and 9 bytes of data. -/
theorem openWriter_defined_witness :
    (⟨1, 1, 48000, 144000, 3, 24⟩ : WavFormat).BlockAlign = 24 / 8 ∧
    main.openWriter IoWriter.buffer (Reader.decoded ⟨1, 1, 48000, 144000, 3, 24⟩ 9)
        (Reader.decoded ⟨1, 1, 48000, 144000, 3, 24⟩ 9)
      = .ok (NewWriter IoWriter.buffer (9 / 3) 2 48000 24) :=
  have h := openWriter_defined IoWriter.buffer ⟨1, 1, 48000, 144000, 3, 24⟩
    ⟨1, 1, 48000, 144000, 3, 24⟩ ⟨1, 1, 48000, 144000, 3, 24⟩ 9 9 (by decide) (by decide)
    (by decide) (by decide)
  ⟨h.1, h.2.2⟩

/-- After `n` turns, with `n` within both sequences, the merge loop has put the right
values into the first `n` samples and left the others as they were. -/
theorem mergeLoop_upto_both (lsamps rsamps : List Sample) :
    ∀ n, n ≤ lsamps.length → n ≤ rsamps.length →
      ∃ cur, (List.range n).foldlM (main.mergeStep rsamps) lsamps = .ok cur ∧
        cur.length = lsamps.length ∧
        ∀ j, cur[j]? =
          if j < n then
            (List.zipWith (fun l r => ({ l with Values := (l.Values.1, r.Values.1) } : Sample))
              lsamps rsamps)[j]?
          else lsamps[j]? := by
  intro n
  induction n with
  | zero =>
    intro _ _
    exact ⟨lsamps, rfl, rfl, by simp⟩
  | succ n ih =>
    intro hn hr
    obtain ⟨cur, hcur, hl, hget⟩ := ih (by omega) (by omega)
    have hnl : n < lsamps.length := by omega
    have hnr : n < rsamps.length := by omega
    have hc : cur[n]? = some lsamps[n] := by
      rw [hget n]
      simp [hnl]
    have hr : rsamps[n]? = some rsamps[n] := by simp [hnr]
    refine ⟨cur.set n { lsamps[n] with Values := (lsamps[n].Values.1, rsamps[n].Values.1) },
      ?_, by simp [hl], ?_⟩
    · have hs : main.mergeStep rsamps cur n = .ok (cur.set n
          { lsamps[n] with Values := (lsamps[n].Values.1, rsamps[n].Values.1) }) := by
        simp only [main.mergeStep, List.get?_eq_getElem?, hc, hr]
      rw [List.range_succ, List.foldlM_append, hcur, Except.ok_bind, List.foldlM_cons, hs,
        Except.ok_bind, List.foldlM_nil]
      rfl
    · intro j
      by_cases hj : j = n
      · subst hj
        simp [List.getElem?_set, hl, hnl, hnr, List.getElem?_zipWith]
      · rw [List.getElem?_set_ne (Ne.symm hj), hget j]
        have : (j < n + 1) = (j < n) := by
          apply propext
          omega
        simp only [this]

/-- A failed step ends the loop with its fault. -/
theorem Except.error_bind {ε α β : Type} (e : ε) (f : α → Except ε β) :
    (Except.error e >>= f) = Except.error e := rfl

/-- Claim C17, counterexample. With a left sequence of one sample and a right sequence of
two, the merge loop does not fail: it ends with one frame and ignores the second right
sample. -/
theorem mergeLoop_left_shorter_succeeds :
    main.mergeLoop [⟨(1, 0)⟩] [⟨(5, 0)⟩, ⟨(6, 0)⟩] = .ok [⟨(1, 5)⟩] ∧
    [(⟨(1, 0)⟩ : Sample)].length < [(⟨(5, 0)⟩ : Sample), ⟨(6, 0)⟩].length := by
  decide

/-- Claim C17, amended. The merge loop compares no lengths. With a left sequence longer than
the right one it fails, by the run-time panic of the read `rsamps[i]` at `i = len(rsamps)`;
with a left sequence shorter than the right one it does not fail and ends with `len(left)`
frames, made of the left samples and the first `len(left)` right samples. -/
theorem mergeLoop_unequal (left right : List Sample) :
    (right.length < left.length →
      main.mergeLoop left right =
        .error ("runtime error: index out of range [" ++ toString right.length
          ++ "] with length " ++ toString right.length)) ∧
    (left.length < right.length →
      ∃ out, main.mergeLoop left right = .ok out ∧ out.length = left.length ∧
        out = List.zipWith
          (fun l r => ({ l with Values := (l.Values.1, r.Values.1) } : Sample)) left right) := by
  constructor
  · intro h
    obtain ⟨cur, hcur, hl, hget⟩ := mergeLoop_upto_both left right right.length (by omega) le_rfl
    obtain ⟨k, hk⟩ : ∃ k, left.length = right.length + (k + 1) := ⟨left.length - right.length - 1, by omega⟩
    have hc : cur[right.length]? = some left[right.length] := by
      rw [hget]
      simp [h]
    have hr : right[right.length]? = none := by simp
    have hs : main.mergeStep right cur right.length =
        .error ("runtime error: index out of range [" ++ toString right.length
          ++ "] with length " ++ toString right.length) := by
      simp only [main.mergeStep, List.get?_eq_getElem?, hc, hr]
    rw [main.mergeLoop, hk, List.range_add, List.foldlM_append, hcur, Except.ok_bind,
      List.range_succ_eq_map, List.map_cons, List.foldlM_cons, Nat.add_zero, hs,
      Except.error_bind]
  · intro h
    exact ⟨_, mergeLoop_eq_zipWith left right (by omega), by simp; omega, rfl⟩

/-- Claim C17, witness: a left sequence of two samples and a right sequence of one; the
loop fails at index 1. -/
theorem mergeLoop_unequal_witness :
    main.mergeLoop [⟨(1, 0)⟩, ⟨(2, 0)⟩] [⟨(5, 0)⟩]
      = .error "runtime error: index out of range [1] with length 1" :=
  (mergeLoop_unequal [⟨(1, 0)⟩, ⟨(2, 0)⟩] [⟨(5, 0)⟩]).1 (by decide)

/-! ## Theorems: `WriteSamples` on every sample list -/

/-- After `m` turns of the fill loop on a buffer of `n` bytes, with `m ≤ n`, the first `m`
bytes are those of the value and the others are as before. -/
theorem setRaw_upto (u n : Nat) (raw : List Nat) (hraw : raw.length = n) :
    ∀ m, m ≤ n →
      ∃ cur, ((List.range m).map (· * 8)).foldlM
          (fun (cur : List Nat) (b : Nat) =>
            if b / 8 < cur.length then
              (.ok (cur.set (b / 8) (((u >>> b) &&& 255) % 2 ^ 8)) : Except Fault (List Nat))
            else
              .error (.panic ("runtime error: index out of range [" ++ toString (b / 8)
                ++ "] with length " ++ toString cur.length)))
          raw = .ok cur ∧
        cur.length = n ∧
        ∀ j, cur[j]? = if j < m then (leBytes u n)[j]? else raw[j]? := by
  intro m
  induction m with
  | zero =>
    intro _
    exact ⟨raw, rfl, hraw, by simp⟩
  | succ m ih =>
    intro hm
    obtain ⟨cur, hcur, hl, hget⟩ := ih (by omega)
    refine ⟨cur.set m (u / 2 ^ (8 * m) % 256), ?_, by simp [hl], ?_⟩
    · rw [List.range_succ, List.map_append, List.foldlM_append, hcur, Except.ok_bind,
        List.map_cons, List.map_nil, List.foldlM_cons]
      have h1 : m * 8 / 8 = m := by omega
      have h2 : m < cur.length := by omega
      simp only [h1, h2, if_true, Except.ok_bind, List.foldlM_nil]
      have h3 : ((u >>> (m * 8)) &&& 255) % 2 ^ 8 = u / 2 ^ (8 * m) % 256 := by
        rw [show (2 : Nat) ^ 8 = 256 from rfl, rawByte_eq, Nat.shiftRight_eq_div_pow,
          Nat.mul_comm]
      rw [h3]
      rfl
    · intro j
      by_cases hj : j = m
      · subst hj
        have hjn : j < n := by omega
        simp [List.getElem?_set, hl, hjn, leBytes]
      · rw [List.getElem?_set_ne (Ne.symm hj), hget j]
        have : (j < m + 1) = (j < m) := by
          apply propext
          omega
        simp only [this]

/-- The number of little-endian bytes. -/
theorem leBytes_length (u n : Nat) : (leBytes u n).length = n := by
  simp [leBytes]

/-- At a width that is a multiple of 8, the fill loop stays within a buffer of
`bitsPerSample / 8` bytes and leaves in it the little-endian bytes of the value. -/
theorem setRaw_eq_leBytes (u bitsPerSample : Nat) (raw : List Nat)
    (hbits : bitsPerSample % 8 = 0) (hraw : raw.length = bitsPerSample / 8) :
    setRaw u bitsPerSample raw = .ok (leBytes u (bitsPerSample / 8)) := by
  obtain ⟨cur, hcur, hl, hget⟩ :=
    setRaw_upto u (bitsPerSample / 8) raw hraw (bitsPerSample / 8) le_rfl
  have hn : (bitsPerSample + 7) / 8 = bitsPerSample / 8 := by omega
  rw [setRaw, hn, hcur]
  congr 1
  apply List.ext_getElem?
  intro j
  rw [hget j]
  split_ifs with hj
  · rfl
  · have h1 : raw.length ≤ j := by omega
    have h2 : (leBytes u (bitsPerSample / 8)).length ≤ j := by
      rw [leBytes_length]
      omega
    rw [List.getElem?_eq_none h1, List.getElem?_eq_none h2]

/-- One value written by a writer whose width is a multiple of 8 and whose sink accepts
every buffer: the sink receives the little-endian bytes of the unsigned pattern. -/
theorem writeValue_ok (bitsPerSample : Nat) (sample : Sample) (st : WriteState) (i : Nat)
    (v : Int) (hv : sample.value i = .ok v) (hbits : bitsPerSample % 8 = 0)
    (hraw : st.raw.length = bitsPerSample / 8)
    (hsink : ∀ a p, st.sink.refuses a p = none) :
    writeValue bitsPerSample sample st i =
      .ok ⟨⟨st.sink.written ++ leBytes (toUint v bitsPerSample) (bitsPerSample / 8),
          st.sink.refuses⟩, leBytes (toUint v bitsPerSample) (bitsPerSample / 8)⟩ := by
  simp only [writeValue, hv, setRaw_eq_leBytes _ _ _ hbits hraw, IoWriter.Write, hsink]

/-- One sample written by a writer of 1 or 2 channels. -/
theorem writeSample_ok (numChannels bitsPerSample : Nat) (sample : Sample) (st : WriteState)
    (hch : numChannels = 1 ∨ numChannels = 2) (hbits : bitsPerSample % 8 = 0)
    (hraw : st.raw.length = bitsPerSample / 8)
    (hsink : ∀ a p, st.sink.refuses a p = none) :
    ∃ st', (List.range numChannels).foldlM (writeValue bitsPerSample sample) st = .ok st' ∧
      st'.raw.length = bitsPerSample / 8 ∧ st'.sink.refuses = st.sink.refuses ∧
      st'.sink.written = st.sink.written
        ++ specEncodeSamples numChannels bitsPerSample [sample] := by
  have h0 : sample.value 0 = .ok sample.Values.1 := rfl
  have h1 : sample.value 1 = .ok sample.Values.2 := rfl
  rcases hch with hch | hch <;> subst hch
  · refine ⟨⟨⟨st.sink.written
        ++ leBytes (toUint sample.Values.1 bitsPerSample) (bitsPerSample / 8),
        st.sink.refuses⟩, leBytes (toUint sample.Values.1 bitsPerSample) (bitsPerSample / 8)⟩,
      ?_, ?_, ?_, ?_⟩
    · rw [show List.range 1 = [0] from rfl, List.foldlM_cons,
        writeValue_ok _ _ _ _ _ h0 hbits hraw hsink, Except.ok_bind, List.foldlM_nil]
      rfl
    · exact leBytes_length _ _
    · rfl
    · simp [specEncodeSamples]
  · refine ⟨⟨⟨st.sink.written
        ++ leBytes (toUint sample.Values.1 bitsPerSample) (bitsPerSample / 8)
        ++ leBytes (toUint sample.Values.2 bitsPerSample) (bitsPerSample / 8),
        st.sink.refuses⟩, leBytes (toUint sample.Values.2 bitsPerSample) (bitsPerSample / 8)⟩,
      ?_, ?_, ?_, ?_⟩
    · have h2 := writeValue_ok bitsPerSample sample
        ⟨⟨st.sink.written
            ++ leBytes (toUint sample.Values.1 bitsPerSample) (bitsPerSample / 8),
          st.sink.refuses⟩, leBytes (toUint sample.Values.1 bitsPerSample) (bitsPerSample / 8)⟩
        1 sample.Values.2 h1 hbits (leBytes_length _ _) hsink
      rw [show List.range 2 = [0, 1] from rfl, List.foldlM_cons,
        writeValue_ok _ _ _ _ _ h0 hbits hraw hsink, Except.ok_bind, List.foldlM_cons, h2,
        Except.ok_bind, List.foldlM_nil]
      rfl
    · exact leBytes_length _ _
    · rfl
    · simp [specEncodeSamples]

/-- The samples written one after the other from a given state. -/
theorem writeSamples_fold (numChannels bitsPerSample : Nat)
    (hch : numChannels = 1 ∨ numChannels = 2) (hbits : bitsPerSample % 8 = 0)
    (samples : List Sample) :
    ∀ st : WriteState, st.raw.length = bitsPerSample / 8 →
      (∀ a p, st.sink.refuses a p = none) →
      ∃ st', samples.foldlM
          (fun (st : WriteState) (sample : Sample) =>
            (List.range numChannels).foldlM (writeValue bitsPerSample sample) st) st
          = .ok st' ∧
        st'.sink.refuses = st.sink.refuses ∧
        st'.sink.written = st.sink.written
          ++ specEncodeSamples numChannels bitsPerSample samples := by
  induction samples with
  | nil =>
    intro st _ _
    exact ⟨st, rfl, rfl, by simp [specEncodeSamples]⟩
  | cons sample rest ih =>
    intro st hraw hsink
    obtain ⟨st1, h1, hraw1, hs1, hw1⟩ :=
      writeSample_ok numChannels bitsPerSample sample st hch hbits hraw hsink
    obtain ⟨st2, h2, hs2, hw2⟩ := ih st1 hraw1 (by rw [hs1]; exact hsink)
    refine ⟨st2, ?_, by rw [hs2, hs1], ?_⟩
    · rw [List.foldlM_cons, h1, Except.ok_bind, h2]
    · rw [hw2, hw1]
      simp [specEncodeSamples]

/-- The number of bytes prescribed for a list of samples. -/
theorem specEncodeSamples_length (numChannels bitsPerSample : Nat)
    (hch : numChannels = 1 ∨ numChannels = 2) (samples : List Sample) :
    (specEncodeSamples numChannels bitsPerSample samples).length
      = samples.length * numChannels * (bitsPerSample / 8) := by
  induction samples with
  | nil => simp [specEncodeSamples]
  | cons sample rest ih =>
    have hc : specEncodeSamples numChannels bitsPerSample (sample :: rest) =
        specEncodeSamples numChannels bitsPerSample [sample]
          ++ specEncodeSamples numChannels bitsPerSample rest := by
      simp [specEncodeSamples]
    rw [hc, List.length_append, ih]
    rcases hch with hch | hch <;> subst hch <;>
      simp [specEncodeSamples, leBytes_length] <;> ring

/-- What `WriteSamples` does on a writer of 1 or 2 channels, of a width that is a multiple
of 8, over a sink that accepts every buffer: it succeeds, and the sink receives the bytes
prescribed for the samples; the format and the declarations of the container are as
before. -/
theorem writeSamples_written (w : Writer) (samples : List Sample)
    (hch : w.Format.NumChannels = 1 ∨ w.Format.NumChannels = 2)
    (hbits : w.Format.BitsPerSample % 8 = 0)
    (hsink : ∀ a p, w.riff.sink.refuses a p = none) :
    ∃ w', w.WriteSamples samples = .ok w' ∧ w'.Format = w.Format ∧
      w'.riff.chunks = w.riff.chunks ∧ w'.riff.fileSize = w.riff.fileSize ∧
      w'.riff.sink.refuses = w.riff.sink.refuses ∧
      w'.written = w.written
        ++ specEncodeSamples w.Format.NumChannels w.Format.BitsPerSample samples := by
  obtain ⟨st', h, hs, hw⟩ := writeSamples_fold w.Format.NumChannels w.Format.BitsPerSample
    hch hbits samples { sink := w.riff.sink, raw := List.replicate (w.Format.BitsPerSample / 8) 0 }
    (by simp) hsink
  refine ⟨{ w with riff := { w.riff with sink := st'.sink } }, ?_, rfl, rfl, rfl, hs, hw⟩
  simp only [Writer.WriteSamples, h]
/-- Faults of a fold: when every step keeps an invariant of the state and fails only with
faults of a given kind, so does the fold. -/
theorem foldlM_fault_kind {σ α : Type} (P : σ → Prop) (Q : Fault → Prop)
    (f : σ → α → Except Fault σ)
    (hf : ∀ s a, P s → (∀ s', f s a = .ok s' → P s') ∧ (∀ e, f s a = .error e → Q e)) :
    ∀ (l : List α) (s : σ), P s →
      (∀ s', l.foldlM f s = .ok s' → P s') ∧ (∀ e, l.foldlM f s = .error e → Q e) := by
  intro l
  induction l with
  | nil =>
    intro s hs
    constructor
    · intro s' h
      exact Except.ok.inj h ▸ hs
    · intro e h
      exact absurd h (by simp [List.foldlM_nil, pure, Except.pure])
  | cons a rest ih =>
    intro s hs
    rw [List.foldlM_cons]
    cases hstep : f s a with
    | error e0 =>
      rw [Except.error_bind]
      constructor
      · intro s' h
        exact absurd h (by simp)
      · intro e h
        exact Except.error.inj h ▸ (hf s a hs).2 e0 hstep
    | ok s1 =>
      rw [Except.ok_bind]
      exact ih s1 ((hf s a hs).1 s1 hstep)

/-- An error value returned by `WriteSamples` is one that the `Write` of the sink returned:
`WriteSamples` has no error of its own. -/
theorem writeSamples_err_from_sink (w : Writer) (samples : List Sample) (msg : String)
    (h : w.WriteSamples samples = .error (.err msg)) :
    ∃ a p, w.riff.sink.refuses a p = some msg := by
  have hval : ∀ (sample : Sample) (st : WriteState) (i : Nat),
      st.sink.refuses = w.riff.sink.refuses →
      (∀ st', writeValue w.Format.BitsPerSample sample st i = .ok st' →
        st'.sink.refuses = w.riff.sink.refuses) ∧
      (∀ e, writeValue w.Format.BitsPerSample sample st i = .error e →
        ∀ m, e = .err m → ∃ a p, w.riff.sink.refuses a p = some m) := by
    intro sample st i hst
    cases hv : sample.value i with
    | error f =>
      have hf : ∃ t, f = .panic t := by
        unfold Sample.value at hv
        split_ifs at hv
        exact ⟨_, (Except.error.inj hv).symm⟩
      obtain ⟨t, rfl⟩ := hf
      simp only [writeValue, hv]
      exact ⟨fun _ h => absurd h (by simp), fun e h m hm => by
        rw [← Except.error.inj h] at hm
        exact absurd hm (by simp)⟩
    | ok v =>
      cases hr : setRaw (toUint v w.Format.BitsPerSample) w.Format.BitsPerSample st.raw with
      | error f =>
        have hf : ∃ t, f = .panic t := by
          unfold setRaw at hr
          exact (foldlM_fault_kind (fun _ => True) (fun e => ∃ t, e = Fault.panic t) _
            (by
              intro s a _
              constructor
              · intro _ _
                trivial
              · intro e he
                split_ifs at he
                exact ⟨_, (Except.error.inj he).symm⟩) _ st.raw trivial).2 f hr
        obtain ⟨t, rfl⟩ := hf
        simp only [writeValue, hv, hr]
        exact ⟨fun _ h => absurd h (by simp), fun e h m hm => by
          rw [← Except.error.inj h] at hm
          exact absurd hm (by simp)⟩
      | ok raw =>
        cases hq : st.sink.refuses st.sink.written raw with
        | some err =>
          simp only [writeValue, hv, hr, IoWriter.Write, hq]
          refine ⟨fun _ h => absurd h (by simp), fun e h m hm => ?_⟩
          rw [← Except.error.inj h] at hm
          have : err = m := by simpa using hm
          exact ⟨st.sink.written, raw, by rw [← hst, hq, this]⟩
        | none =>
          simp only [writeValue, hv, hr, IoWriter.Write, hq]
          refine ⟨fun st' h => ?_, fun e h => absurd h (by simp)⟩
          rw [← Except.ok.inj h]
          exact hst
  have hsample : ∀ (st : WriteState) (sample : Sample),
      st.sink.refuses = w.riff.sink.refuses →
      (∀ st', (List.range w.Format.NumChannels).foldlM
          (writeValue w.Format.BitsPerSample sample) st = .ok st' →
        st'.sink.refuses = w.riff.sink.refuses) ∧
      (∀ e, (List.range w.Format.NumChannels).foldlM
          (writeValue w.Format.BitsPerSample sample) st = .error e →
        ∀ m, e = .err m → ∃ a p, w.riff.sink.refuses a p = some m) := by
    intro st sample hst
    exact foldlM_fault_kind (fun s => s.sink.refuses = w.riff.sink.refuses)
      (fun e => ∀ m, e = .err m → ∃ a p, w.riff.sink.refuses a p = some m) _
      (fun s a hs => hval sample s a hs) _ st hst
  have hall := foldlM_fault_kind (fun s => s.sink.refuses = w.riff.sink.refuses)
    (fun e => ∀ m, e = .err m → ∃ a p, w.riff.sink.refuses a p = some m)
    (fun (st : WriteState) (sample : Sample) =>
      (List.range w.Format.NumChannels).foldlM (writeValue w.Format.BitsPerSample sample) st)
    hsample samples
    { sink := w.riff.sink, raw := List.replicate (w.Format.BitsPerSample / 8) 0 } rfl
  unfold Writer.WriteSamples at h
  simp only at h
  split at h
  · rename_i f hf
    exact hall.2 f hf msg (Except.error.inj h)
  · exact absurd h (by simp)
/-- Claim C12, counterexample. A writer opened by `NewWriter` for 2 channels of 32768 bits
has block align 0, since the 16-bit product `2 * 32768` wraps; `WriteSamples` emits 8192
bytes for one sample, which is `1 * 2 * (32768 / 8)` and not `1 * BlockAlign`. -/
theorem writeSamples_total_not_blockAlign :
    ∃ w', (NewWriter IoWriter.buffer 1 2 44100 32768).WriteSamples [⟨(0, 0)⟩] = .ok w' ∧
      w'.written.length = 8192 ∧
      (NewWriter IoWriter.buffer 1 2 44100 32768).Format.BlockAlign = 0 := by
  obtain ⟨w', h, _, _, _, _, hw⟩ := writeSamples_written
    (NewWriter IoWriter.buffer 1 2 44100 32768) [⟨(0, 0)⟩] (Or.inr rfl) (by decide)
    (fun _ _ => rfl)
  have hl := specEncodeSamples_length 2 32768 (Or.inr rfl) [⟨(0, 0)⟩]
  refine ⟨w', h, ?_, by decide⟩
  have e1 : (NewWriter IoWriter.buffer 1 2 44100 32768).written = [] := rfl
  have e2 : (NewWriter IoWriter.buffer 1 2 44100 32768).Format.NumChannels = 2 := rfl
  have e3 : (NewWriter IoWriter.buffer 1 2 44100 32768).Format.BitsPerSample = 32768 := rfl
  rw [hw, e1, e2, e3, List.length_append, hl]
  decide

/-- Claim C12, amended. For every writer whose `BitsPerSample` is a multiple of 8 and whose
`NumChannels` is 1 or 2, over a sink that accepts every buffer, and for every sample list,
`WriteSamples` succeeds (every index is in range) and the sink receives, sample by sample in
order, channel 0 then channel 1, each value as the `BitsPerSample / 8` little-endian bytes
of its unsigned pattern. The output has `len(samples) * NumChannels * (BitsPerSample / 8)`
bytes, which is `len(samples) * BlockAlign` when the format has the derived block align
`NumChannels * BitsPerSample / 8`. -/
theorem writeSamples_layout (w : Writer) (samples : List Sample)
    (hch : w.Format.NumChannels = 1 ∨ w.Format.NumChannels = 2)
    (hbits : w.Format.BitsPerSample % 8 = 0)
    (hsink : ∀ a p, w.riff.sink.refuses a p = none) :
    ∃ w', w.WriteSamples samples = .ok w' ∧
      w'.written = w.written
        ++ specEncodeSamples w.Format.NumChannels w.Format.BitsPerSample samples ∧
      (specEncodeSamples w.Format.NumChannels w.Format.BitsPerSample samples).length
        = samples.length * w.Format.NumChannels * (w.Format.BitsPerSample / 8) ∧
      (w.Format.BlockAlign = w.Format.NumChannels * w.Format.BitsPerSample / 8 →
        (specEncodeSamples w.Format.NumChannels w.Format.BitsPerSample samples).length
          = samples.length * w.Format.BlockAlign) := by
  obtain ⟨w', h, _, _, _, _, hw⟩ := writeSamples_written w samples hch hbits hsink
  have hlen := specEncodeSamples_length w.Format.NumChannels w.Format.BitsPerSample hch samples
  refine ⟨w', h, hw, hlen, ?_⟩
  intro hb
  have hmul : w.Format.NumChannels * w.Format.BitsPerSample / 8
      = w.Format.NumChannels * (w.Format.BitsPerSample / 8) := by
    obtain ⟨k, hk⟩ := Nat.dvd_of_mod_eq_zero hbits
    rw [hk, Nat.mul_div_cancel_left k (by decide : 0 < 8), ← Nat.mul_assoc,
      Nat.mul_comm w.Format.NumChannels 8, Nat.mul_assoc,
      Nat.mul_div_cancel_left _ (by decide : 0 < 8)]
  rw [hlen, hb, hmul, Nat.mul_assoc]

/-- Claim C12, witness: two stereo 16-bit samples, `(1, -1)` and `(258, -2)`. -/
theorem writeSamples_layout_witness :
    ∃ w', (NewWriter IoWriter.buffer 2 2 44100 16).WriteSamples [⟨(1, -1)⟩, ⟨(258, -2)⟩]
        = .ok w' ∧
      w'.written = [1, 0, 255, 255, 2, 1, 254, 255] ∧
      [1, 0, 255, 255, 2, 1, 254, 255].length = 2 * 4 := by
  obtain ⟨w', h, hw, _, _⟩ := writeSamples_layout (NewWriter IoWriter.buffer 2 2 44100 16)
    [⟨(1, -1)⟩, ⟨(258, -2)⟩] (Or.inr rfl) (by decide) (fun _ _ => rfl)
  refine ⟨w', h, ?_, rfl⟩
  rw [hw]
  decide

/-- Claim C13, counterexample. A mono 16-bit writer opened for 1 sample over a memory buffer
declares a data chunk of 2 bytes; `WriteSamples` of 2 samples through it succeeds and 4
bytes reach the sink. -/
theorem writeSamples_beyond_declared :
    ((NewWriter IoWriter.buffer 1 1 44100 16).WriteSamples
        [⟨(1, 0)⟩, ⟨(2, 0)⟩]).toOption.map Writer.written = some [1, 0, 2, 0] ∧
    (NewWriter IoWriter.buffer 1 1 44100 16).riff.chunks = [("fmt ", 16), ("data", 2)] := by
  decide

/-- Claim C13, amended. `WriteSamples` keeps no count of the samples written. For every
writer opened by `NewWriter` over a sink that accepts every buffer, with 1 or 2 channels and
a bit depth that is a multiple of 8, whatever the declared sample count `n`, `WriteSamples`
succeeds on every sample list, `len(samples) * NumChannels * (BitsPerSample / 8)` bytes
reach the sink, and the declared lengths stay as they were. An error value returned by
`WriteSamples`, on any writer, is one that the `Write` of its sink returned. -/
theorem writeSamples_no_limit (n numChannels sampleRate bitsPerSample : Nat)
    (samples : List Sample) (hch : numChannels = 1 ∨ numChannels = 2)
    (hbits : bitsPerSample % 8 = 0) :
    (∃ w', (NewWriter IoWriter.buffer n numChannels sampleRate bitsPerSample).WriteSamples
          samples = .ok w' ∧
        w'.written.length = samples.length * numChannels * (bitsPerSample / 8) ∧
        w'.riff.chunks
          = (NewWriter IoWriter.buffer n numChannels sampleRate bitsPerSample).riff.chunks) ∧
    (∀ (w : Writer) (msg : String), w.WriteSamples samples = .error (.err msg) →
      ∃ a p, w.riff.sink.refuses a p = some msg) := by
  constructor
  · obtain ⟨w', h, _, hc, _, _, hw⟩ := writeSamples_written
      (NewWriter IoWriter.buffer n numChannels sampleRate bitsPerSample) samples hch hbits
      (fun _ _ => rfl)
    refine ⟨w', h, ?_, hc⟩
    rw [hw, List.length_append]
    have := specEncodeSamples_length numChannels bitsPerSample hch samples
    simp only [NewWriter] at this ⊢
    rw [this]
    simp [Writer.written, IoWriter.buffer]
  · intro w msg h
    exact writeSamples_err_from_sink w samples msg h

/-- Claim C13, witness: three mono 16-bit samples through a writer opened for one. -/
theorem writeSamples_no_limit_witness :
    ∃ w', (NewWriter IoWriter.buffer 1 1 44100 16).WriteSamples
          [⟨(1, 0)⟩, ⟨(2, 0)⟩, ⟨(3, 0)⟩] = .ok w' ∧
        w'.written.length = 3 * 1 * (16 / 8) ∧
        w'.riff.chunks = (NewWriter IoWriter.buffer 1 1 44100 16).riff.chunks :=
  (writeSamples_no_limit 1 1 44100 16 [⟨(1, 0)⟩, ⟨(2, 0)⟩, ⟨(3, 0)⟩] (Or.inl rfl)
    (by decide)).1

/-- The bytes of the pattern that `toUint` gives are the bytes of `v mod 2 ^ w`, at the
widths 8, 16, 24 and 32 and for every `v`. -/
theorem leBytes_toUint (w : Nat) (v : Int) (hw : w = 8 ∨ w = 16 ∨ w = 24 ∨ w = 32) :
    leBytes (toUint v w) (w / 8) = leBytes (v % 2 ^ w).toNat (w / 8) := by
  rcases hw with hw | hw | hw | hw <;> subst hw
  all_goals
    simp only [leBytes, toUint]
    norm_num [List.range_succ] <;> (try split_ifs) <;> omega

/-! ## Theorems: conflicts and the order of the names in pair resolution -/

/-- One turn of the resolution loop is its two halves, one after the other. -/
theorem pairStep_eq (outs : OutMap) (f : FileInfo) :
    main.pairStep outs f =
      match main.classify f with
      | none => .ok outs
      | some (k, b) => main.store outs k b := by
  simp only [main.pairStep, main.classify, main.store]
  split_ifs <;> rfl

/-- The pair of a classified entry has the name of the entry, which is not empty, on one
side and nothing on the other. -/
theorem classify_single {f : FileInfo} {k : String} {b : lr}
    (h : main.classify f = some (k, b)) :
    (b = ⟨f.Name, ""⟩ ∨ b = ⟨"", f.Name⟩) ∧ f.Name ≠ "" := by
  simp only [main.classify] at h
  split_ifs at h with h0 hl hs hr hs hs
  · have hb : b = ⟨f.Name, ""⟩ := by
      have := Option.some.inj h
      exact (congrArg Prod.snd this).symm
    exact ⟨Or.inl hb, ne_empty_of_contains (by decide) hl⟩
  · have hb : b = ⟨"", f.Name⟩ := by
      have := Option.some.inj h
      exact (congrArg Prod.snd this).symm
    exact ⟨Or.inr hb, ne_empty_of_contains (by decide) hr⟩
  · exact absurd hs (by simp)

/-- Lookup after an assignment. -/
theorem OutMap.get_set (m : OutMap) (k : String) (v : lr) (k' : String) :
    (OutMap.set m k v).get k' = if k = k' then some v else m.get k' := by
  induction m with
  | nil =>
    simp [OutMap.set, OutMap.get]
  | cons x rest ih =>
    obtain ⟨k0, v0⟩ := x
    simp only [OutMap.set]
    by_cases h0 : k0 = k
    · subst h0
      simp only [if_true, OutMap.get]
      split_ifs <;> rfl
    · simp only [if_neg h0, OutMap.get, ih]
      by_cases h1 : k0 = k'
      · subst h1
        simp [Ne.symm h0]
      · simp [h1]

/-- The storing half of a turn, through the entry of the output name. -/
theorem store_eq (outs : OutMap) (k : String) (b : lr) :
    main.store outs k b =
      match main.merged (outs.get k) b with
      | .error err => .error err
      | .ok v => .ok (outs.set k v) := by
  unfold main.store main.merged
  cases outs.get k with
  | none => rfl
  | some a => rfl

/-- Two single-sided pairs that come for one output name, in either order: both orders end
in a fault, or both end with the same entry, which has a side set. -/
theorem merged_comm (o : Option lr) (b1 b2 : lr)
    (ho : ∀ a, o = some a → a.L ≠ "" ∨ a.R ≠ "")
    (h1 : (b1.L ≠ "" ∧ b1.R = "") ∨ (b1.L = "" ∧ b1.R ≠ ""))
    (h2 : (b2.L ≠ "" ∧ b2.R = "") ∨ (b2.L = "" ∧ b2.R ≠ "")) :
    (∃ e e', (main.merged o b1 >>= fun v => main.merged (some v) b2) = .error e ∧
      (main.merged o b2 >>= fun v => main.merged (some v) b1) = .error e') ∨
    (∃ v, (main.merged o b1 >>= fun v => main.merged (some v) b2) = .ok v ∧
      (main.merged o b2 >>= fun v => main.merged (some v) b1) = .ok v ∧
      (v.L ≠ "" ∨ v.R ≠ "")) := by
  obtain ⟨x1, y1⟩ := b1
  obtain ⟨x2, y2⟩ := b2
  simp only at h1 h2
  cases o with
  | none =>
    rcases h1 with ⟨hx1, hy1⟩ | ⟨hx1, hy1⟩ <;> rcases h2 with ⟨hx2, hy2⟩ | ⟨hx2, hy2⟩ <;>
      simp [main.merged, lr.combine, Except.ok_bind, hx1, hy1, hx2, hy2]
  | some a =>
    obtain ⟨xa, ya⟩ := a
    have ha := ho _ rfl
    simp only at ha
    left
    by_cases hxa : xa = "" <;> by_cases hya : ya = "" <;>
      rcases h1 with ⟨hx1, hy1⟩ | ⟨hx1, hy1⟩ <;> rcases h2 with ⟨hx2, hy2⟩ | ⟨hx2, hy2⟩ <;>
      simp_all [main.merged, lr.combine, Except.ok_bind, Except.error_bind]

/-- The entries found by lookup in a mapping whose pairs all have a side set. -/
theorem get_side_nonempty {m : OutMap} (hinv : ∀ e ∈ m, e.2.L ≠ "" ∨ e.2.R ≠ "")
    (k : String) : ∀ a, m.get k = some a → a.L ≠ "" ∨ a.R ≠ "" := by
  intro a ha
  obtain ⟨k', hm⟩ := OutMap.mem_of_get ha
  exact hinv _ hm

/-- Two faults are the same outcome. -/
theorem sameOutcome_of_errors {r1 r2 : Except String OutMap}
    (h1 : ∃ e, r1 = .error e) (h2 : ∃ e, r2 = .error e) : SameOutcome r1 r2 := by
  obtain ⟨e1, h1⟩ := h1
  obtain ⟨e2, h2⟩ := h2
  exact Or.inl ⟨e1, e2, h1, h2⟩

/-- Two single-sided pairs stored one after the other, in either order, have the same
outcome. -/
theorem store_swap (m : OutMap) (k1 k2 : String) (b1 b2 : lr)
    (hinv : ∀ e ∈ m, e.2.L ≠ "" ∨ e.2.R ≠ "")
    (h1 : (b1.L ≠ "" ∧ b1.R = "") ∨ (b1.L = "" ∧ b1.R ≠ ""))
    (h2 : (b2.L ≠ "" ∧ b2.R = "") ∨ (b2.L = "" ∧ b2.R ≠ "")) :
    SameOutcome (main.store m k1 b1 >>= fun m1 => main.store m1 k2 b2)
      (main.store m k2 b2 >>= fun m2 => main.store m2 k1 b1) := by
  by_cases hk : k1 = k2
  · subst hk
    rcases merged_comm (m.get k1) b1 b2 (get_side_nonempty hinv k1) h1 h2 with
      ⟨e, e', he, he'⟩ | ⟨v, hv, hv', _⟩
    · apply sameOutcome_of_errors
      · rw [store_eq]
        cases hr : main.merged (m.get k1) b1 with
        | error e0 => exact ⟨e0, rfl⟩
        | ok v1 =>
          rw [hr, Except.ok_bind] at he
          simp only [Except.ok_bind, store_eq, OutMap.get_set, if_true, he]
          exact ⟨e, rfl⟩
      · rw [store_eq]
        cases hr : main.merged (m.get k1) b2 with
        | error e0 => exact ⟨e0, rfl⟩
        | ok v1 =>
          rw [hr, Except.ok_bind] at he'
          simp only [Except.ok_bind, store_eq, OutMap.get_set, if_true, he']
          exact ⟨e', rfl⟩
    · right
      cases hr1 : main.merged (m.get k1) b1 with
      | error e0 =>
        rw [hr1, Except.error_bind] at hv
        exact absurd hv (by simp)
      | ok v1 =>
        cases hr2 : main.merged (m.get k1) b2 with
        | error e0 =>
          rw [hr2, Except.error_bind] at hv'
          exact absurd hv' (by simp)
        | ok v2 =>
          rw [hr1, Except.ok_bind] at hv
          rw [hr2, Except.ok_bind] at hv'
          refine ⟨(m.set k1 v1).set k1 v, (m.set k1 v2).set k1 v, ?_, ?_, ?_⟩
          · simp only [store_eq, hr1, Except.ok_bind, OutMap.get_set, if_true, hv]
          · simp only [store_eq, hr2, Except.ok_bind, OutMap.get_set, if_true, hv']
          · intro k
            simp only [OutMap.get_set]
            split_ifs <;> rfl
  · have hk' : ¬k2 = k1 := fun h => hk h.symm
    cases hr1 : main.merged (m.get k1) b1 with
    | error e1 =>
      apply sameOutcome_of_errors
      · exact ⟨e1, by simp only [store_eq, hr1, Except.error_bind]⟩
      · cases hr2 : main.merged (m.get k2) b2 with
        | error e2 => exact ⟨e2, by simp only [store_eq, hr2, Except.error_bind]⟩
        | ok v2 =>
          exact ⟨e1, by
            simp only [store_eq, hr2, Except.ok_bind, OutMap.get_set, if_neg hk', hr1]⟩
    | ok v1 =>
      cases hr2 : main.merged (m.get k2) b2 with
      | error e2 =>
        apply sameOutcome_of_errors
        · exact ⟨e2, by
            simp only [store_eq, hr1, Except.ok_bind, OutMap.get_set, if_neg hk, hr2]⟩
        · exact ⟨e2, by simp only [store_eq, hr2, Except.error_bind]⟩
      | ok v2 =>
        right
        refine ⟨(m.set k1 v1).set k2 v2, (m.set k2 v2).set k1 v1, ?_, ?_, ?_⟩
        · simp only [store_eq, hr1, Except.ok_bind, OutMap.get_set, if_neg hk, hr2]
        · simp only [store_eq, hr2, Except.ok_bind, OutMap.get_set, if_neg hk', hr1]
        · intro k
          simp only [OutMap.get_set]
          by_cases ha : k1 = k <;> by_cases hb : k2 = k <;> simp [ha, hb]
          exact absurd (ha.trans hb.symm) hk

/-- Every outcome agrees with itself. -/
theorem sameOutcome_refl (r : Except String OutMap) : SameOutcome r r := by
  cases r with
  | error e => exact Or.inl ⟨e, e, rfl, rfl⟩
  | ok m => exact Or.inr ⟨m, m, rfl, rfl, fun _ => rfl⟩

/-- Agreement of outcomes is transitive. -/
theorem sameOutcome_trans {r1 r2 r3 : Except String OutMap}
    (h12 : SameOutcome r1 r2) (h23 : SameOutcome r2 r3) : SameOutcome r1 r3 := by
  rcases h12 with ⟨e1, e2, h1, h2⟩ | ⟨m1, m2, h1, h2, hm⟩
  · rcases h23 with ⟨e2', e3, h2', h3⟩ | ⟨m2', m3, h2', h3, hm'⟩
    · exact Or.inl ⟨e1, e3, h1, h3⟩
    · rw [h2] at h2'
      exact absurd h2' (by simp)
  · rcases h23 with ⟨e2', e3, h2', h3⟩ | ⟨m2', m3, h2', h3, hm'⟩
    · rw [h2] at h2'
      exact absurd h2' (by simp)
    · rw [h2] at h2'
      have := Except.ok.inj h2'
      subst this
      exact Or.inr ⟨m1, m3, h1, h3, fun k => (hm k).trans (hm' k)⟩

/-- The pair of a classified entry has exactly one side set. -/
theorem classify_one_side {f : FileInfo} {k : String} {b : lr}
    (h : main.classify f = some (k, b)) :
    (b.L ≠ "" ∧ b.R = "") ∨ (b.L = "" ∧ b.R ≠ "") := by
  obtain ⟨hb, hn⟩ := classify_single h
  rcases hb with hb | hb <;> subst hb
  · exact Or.inl ⟨hn, rfl⟩
  · exact Or.inr ⟨rfl, hn⟩

/-- Two turns of the resolution loop, in either order, have the same outcome. -/
theorem pairStep_swap (m : OutMap) (f g : FileInfo)
    (hinv : ∀ e ∈ m, e.2.L ≠ "" ∨ e.2.R ≠ "") :
    SameOutcome (main.pairStep m f >>= fun m1 => main.pairStep m1 g)
      (main.pairStep m g >>= fun m2 => main.pairStep m2 f) := by
  simp only [pairStep_eq]
  cases hf : main.classify f with
  | none =>
    cases hg : main.classify g with
    | none => exact sameOutcome_refl _
    | some kc =>
      obtain ⟨k2, c⟩ := kc
      simp only [Except.ok_bind]
      cases main.store m k2 c <;> exact sameOutcome_refl _
  | some kb =>
    obtain ⟨k1, b⟩ := kb
    cases hg : main.classify g with
    | none =>
      simp only [Except.ok_bind]
      cases main.store m k1 b <;> exact sameOutcome_refl _
    | some kc =>
      obtain ⟨k2, c⟩ := kc
      exact store_swap m k1 k2 b c hinv (classify_one_side hf) (classify_one_side hg)

/-- The loop, one turn at a time. -/
theorem pairLoop_cons (f : FileInfo) (l : List FileInfo) (m : OutMap) :
    main.pairLoop (f :: l) m = main.pairStep m f >>= main.pairLoop l := by
  simp only [main.pairLoop]
  cases main.pairStep m f <;> rfl

/-- From two mappings that give the same pair for every output name, the loop has the same
outcome. -/
theorem pairLoop_congr (l : List FileInfo) :
    ∀ m1 m2 : OutMap, (∀ k, m1.get k = m2.get k) →
      (∀ e ∈ m1, e.2.L ≠ "" ∨ e.2.R ≠ "") → (∀ e ∈ m2, e.2.L ≠ "" ∨ e.2.R ≠ "") →
      SameOutcome (main.pairLoop l m1) (main.pairLoop l m2) := by
  induction l with
  | nil =>
    intro m1 m2 h _ _
    exact Or.inr ⟨m1, m2, rfl, rfl, h⟩
  | cons f rest ih =>
    intro m1 m2 h hi1 hi2
    rw [pairLoop_cons, pairLoop_cons]
    cases hs1 : main.pairStep m1 f with
    | error e1 =>
      have hs2 : ∃ e2, main.pairStep m2 f = .error e2 := by
        rw [pairStep_eq] at hs1 ⊢
        cases hc : main.classify f with
        | none =>
          rw [hc] at hs1
          exact absurd hs1 (by simp)
        | some kb =>
          obtain ⟨k, b⟩ := kb
          rw [hc] at hs1
          simp only [store_eq, ← h k] at hs1 ⊢
          cases hm : main.merged (m1.get k) b with
          | error e => exact ⟨e, rfl⟩
          | ok v =>
            rw [hm] at hs1
            exact absurd hs1 (by simp)
      obtain ⟨e2, hs2⟩ := hs2
      rw [hs2]
      exact Or.inl ⟨e1, e2, rfl, rfl⟩
    | ok n1 =>
      have hs2 : ∃ n2, main.pairStep m2 f = .ok n2 ∧ ∀ k, n1.get k = n2.get k := by
        rw [pairStep_eq] at hs1 ⊢
        cases hc : main.classify f with
        | none =>
          rw [hc] at hs1
          exact ⟨m2, rfl, Except.ok.inj hs1 ▸ h⟩
        | some kb =>
          obtain ⟨k, b⟩ := kb
          rw [hc] at hs1
          simp only [store_eq, ← h k] at hs1 ⊢
          cases hm : main.merged (m1.get k) b with
          | error e =>
            rw [hm] at hs1
            exact absurd hs1 (by simp)
          | ok v =>
            rw [hm] at hs1
            refine ⟨m2.set k v, rfl, ?_⟩
            intro k'
            rw [← Except.ok.inj hs1, OutMap.get_set, OutMap.get_set, h k']
      obtain ⟨n2, hs2, hn⟩ := hs2
      rw [hs2, Except.ok_bind, Except.ok_bind]
      exact ih n1 n2 hn (pairStep_side_nonempty hs1 hi1) (pairStep_side_nonempty hs2 hi2)

/-- The outcome of the resolution loop, from a mapping whose pairs all have a side set, does
not depend on the order of the directory entries. -/
theorem pairLoop_perm {l1 l2 : List FileInfo} (hp : l1.Perm l2) :
    ∀ m : OutMap, (∀ e ∈ m, e.2.L ≠ "" ∨ e.2.R ≠ "") →
      SameOutcome (main.pairLoop l1 m) (main.pairLoop l2 m) := by
  induction hp with
  | nil =>
    intro m _
    exact sameOutcome_refl _
  | cons x _ ih =>
    intro m hinv
    rw [pairLoop_cons, pairLoop_cons]
    cases hs : main.pairStep m x with
    | error e => exact sameOutcome_refl _
    | ok n =>
      rw [Except.ok_bind, Except.ok_bind]
      exact ih n (pairStep_side_nonempty hs hinv)
  | swap x y l =>
    intro m hinv
    rw [pairLoop_cons, pairLoop_cons]
    have hsw := pairStep_swap m y x hinv
    cases hy : main.pairStep m y with
    | error ey =>
      rw [hy, Except.error_bind] at hsw
      rw [Except.error_bind]
      rcases hsw with ⟨e1, e2, _, h2⟩ | ⟨m1, m2, h1, _, _⟩
      · cases hx : main.pairStep m x with
        | error ex =>
          rw [Except.error_bind]
          exact Or.inl ⟨ey, ex, rfl, rfl⟩
        | ok nx =>
          rw [hx, Except.ok_bind] at h2
          rw [Except.ok_bind, pairLoop_cons, h2, Except.error_bind]
          exact Or.inl ⟨ey, e2, rfl, rfl⟩
      · exact absurd h1 (by simp)
    | ok ny =>
      rw [hy, Except.ok_bind] at hsw
      rw [Except.ok_bind]
      have hiy := pairStep_side_nonempty hy hinv
      cases hx : main.pairStep m x with
      | error ex =>
        rw [hx, Except.error_bind] at hsw
        rw [Except.error_bind]
        rcases hsw with ⟨e1, e2, h1, _⟩ | ⟨m1, m2, _, h2, _⟩
        · rw [pairLoop_cons, h1, Except.error_bind]
          exact Or.inl ⟨e1, ex, rfl, rfl⟩
        · exact absurd h2 (by simp)
      | ok nx =>
        rw [hx, Except.ok_bind] at hsw
        rw [Except.ok_bind, pairLoop_cons, pairLoop_cons]
        have hix := pairStep_side_nonempty hx hinv
        rcases hsw with ⟨e1, e2, h1, h2⟩ | ⟨m1, m2, h1, h2, hm⟩
        · rw [h1, h2, Except.error_bind, Except.error_bind]
          exact Or.inl ⟨e1, e2, rfl, rfl⟩
        · rw [h1, h2, Except.ok_bind, Except.ok_bind]
          exact pairLoop_congr l m1 m2 hm (pairStep_side_nonempty h1 hiy)
            (pairStep_side_nonempty h2 hix)
  | trans _ _ ih1 ih2 =>
    intro m hinv
    exact sameOutcome_trans (ih1 m hinv) (ih2 m hinv)

/-- A failed merge is a conflict between two names set on the same side. -/
theorem combine_error {a b : lr} {msg : String} (h : a.combine b = .error msg) :
    (a.L ≠ "" ∧ b.L ≠ "" ∧
      msg = "mis-matched L files: '" ++ a.L ++ "' and '" ++ b.L ++ "'") ∨
    (a.R ≠ "" ∧ b.R ≠ "" ∧
      msg = "mis-matched R files: '" ++ a.R ++ "' and '" ++ b.R ++ "'") := by
  unfold lr.combine at h
  split_ifs at h with h1 h2 h3
  · exact Or.inl ⟨h1.1, h1.2, (Except.error.inj h).symm⟩
  · exact Or.inr ⟨h2.1, h2.2, (Except.error.inj h).symm⟩

/-- Each side of a merge comes from one of the two pairs. -/
theorem combine_sides {a b v : lr} (h : a.combine b = .ok v) :
    (v.L = a.L ∨ v.L = b.L) ∧ (v.R = a.R ∨ v.R = b.R) := by
  unfold lr.combine at h
  split_ifs at h with h1 h2 h3
  · rw [← Except.ok.inj h]
    exact ⟨Or.inr rfl, Or.inl rfl⟩
  · rw [← Except.ok.inj h]
    exact ⟨Or.inl rfl, Or.inr rfl⟩

/-- One turn of the loop on an entry whose name is among `names`: the sides of the pairs
stay empty or among `names`, and a fault is a naming conflict between two of `names`. -/
theorem pairStep_names (names : List String) {m : OutMap} {f : FileInfo}
    (hf : f.Name ∈ names)
    (hinv : ∀ e ∈ m, (e.2.L = "" ∨ e.2.L ∈ names) ∧ (e.2.R = "" ∨ e.2.R ∈ names)) :
    (∀ m', main.pairStep m f = .ok m' →
      ∀ e ∈ m', (e.2.L = "" ∨ e.2.L ∈ names) ∧ (e.2.R = "" ∨ e.2.R ∈ names)) ∧
    (∀ msg, main.pairStep m f = .error msg → NamingConflict names msg) := by
  rw [pairStep_eq]
  cases hc : main.classify f with
  | none =>
    exact ⟨fun m' h => Except.ok.inj h ▸ hinv, fun msg h => absurd h (by simp)⟩
  | some kb =>
    obtain ⟨k, b⟩ := kb
    obtain ⟨hb, _⟩ := classify_single hc
    have hbn : (b.L = "" ∨ b.L ∈ names) ∧ (b.R = "" ∨ b.R ∈ names) := by
      rcases hb with hb | hb <;> subst hb
      · exact ⟨Or.inr hf, Or.inl rfl⟩
      · exact ⟨Or.inl rfl, Or.inr hf⟩
    simp only [store_eq]
    cases hg : m.get k with
    | none =>
      simp only [main.merged]
      refine ⟨fun m' h e he => ?_, fun msg h => absurd h (by simp)⟩
      rw [← Except.ok.inj h] at he
      rcases OutMap.mem_set he with he | he
      · rw [he]
        exact hbn
      · exact hinv e he
    | some a =>
      obtain ⟨k', ha⟩ := OutMap.mem_of_get hg
      have han := hinv _ ha
      simp only [main.merged]
      cases hm : a.combine b with
      | error e0 =>
        refine ⟨fun m' h => absurd h (by simp), fun msg h => ?_⟩
        have hmsg : e0 = msg := Except.error.inj h
        subst hmsg
        rcases combine_error hm with ⟨h1, h2, h3⟩ | ⟨h1, h2, h3⟩
        · exact ⟨a.L, b.L, han.1.resolve_left h1, hbn.1.resolve_left h2, Or.inl h3⟩
        · exact ⟨a.R, b.R, han.2.resolve_left h1, hbn.2.resolve_left h2, Or.inr h3⟩
      | ok v =>
        refine ⟨fun m' h e he => ?_, fun msg h => absurd h (by simp)⟩
        rw [← Except.ok.inj h] at he
        obtain ⟨hl, hr⟩ := combine_sides hm
        rcases OutMap.mem_set he with he | he
        · rw [he]
          constructor
          · rcases hl with hl | hl <;> simp only [hl]
            · exact han.1
            · exact hbn.1
          · rcases hr with hr | hr <;> simp only [hr]
            · exact han.2
            · exact hbn.2
        · exact hinv e he

/-- A fault of the resolution loop is a naming conflict between two of the names. -/
theorem pairLoop_error_names (names : List String) (l : List FileInfo) :
    ∀ m : OutMap, (∀ f ∈ l, f.Name ∈ names) →
      (∀ e ∈ m, (e.2.L = "" ∨ e.2.L ∈ names) ∧ (e.2.R = "" ∨ e.2.R ∈ names)) →
      ∀ msg, main.pairLoop l m = .error msg → NamingConflict names msg := by
  induction l with
  | nil =>
    intro m _ _ msg h
    exact absurd h (by simp [main.pairLoop])
  | cons f rest ih =>
    intro m hl hinv msg h
    obtain ⟨hok, herr⟩ := pairStep_names names (hl f (List.mem_cons_self _ _)) hinv
    rw [pairLoop_cons] at h
    cases hs : main.pairStep m f with
    | error e0 =>
      rw [hs, Except.error_bind] at h
      exact herr msg (hs.trans h)
    | ok n =>
      rw [hs, Except.ok_bind] at h
      exact ih n (fun g hg => hl g (List.mem_cons_of_mem _ hg)) (hok n hs) msg h

/-- A fault of pair resolution is a naming conflict between two names of the list. -/
theorem resolve_error_names (files : List FileInfo) (msg : String)
    (h : main.resolve files = .error msg) :
    NamingConflict (files.map fun f => f.Name) msg :=
  pairLoop_error_names _ files [] (fun f hf => List.mem_map.mpr ⟨f, hf, rfl⟩)
    (fun e he => absurd he (List.not_mem_nil e)) msg h

/-- Two entries classified on the same side with the same output name, one after the other
from the empty mapping: the second turn is the conflict of the two names. -/
theorem pairLoop_two_conflict (f g : FileInfo) (k : String) (rest : List FileInfo) :
    (main.classify f = some (k, ⟨f.Name, ""⟩) → main.classify g = some (k, ⟨g.Name, ""⟩) →
      main.pairLoop (f :: g :: rest) [] =
        .error ("mis-matched L files: '" ++ f.Name ++ "' and '" ++ g.Name ++ "'")) ∧
    (main.classify f = some (k, ⟨"", f.Name⟩) → main.classify g = some (k, ⟨"", g.Name⟩) →
      main.pairLoop (f :: g :: rest) [] =
        .error ("mis-matched R files: '" ++ f.Name ++ "' and '" ++ g.Name ++ "'")) := by
  constructor
  · intro hf hg
    have hnf := (classify_single hf).2
    have hng := (classify_single hg).2
    simp [main.pairLoop, pairStep_eq, hf, hg, main.store, OutMap.get, OutMap.set,
      lr.combine, hnf, hng]
  · intro hf hg
    have hnf := (classify_single hf).2
    have hng := (classify_single hg).2
    simp [main.pairLoop, pairStep_eq, hf, hg, main.store, OutMap.get, OutMap.set,
      lr.combine, hnf, hng]

/-- A list with two marked entries has the same entries as the list that starts with the
two. -/
theorem perm_two_front (pre mid post : List FileInfo) (f g : FileInfo) :
    (pre ++ f :: (mid ++ g :: post)).Perm (f :: g :: (pre ++ (mid ++ post))) := by
  have h1 : (pre ++ f :: (mid ++ g :: post)).Perm (f :: (pre ++ (mid ++ g :: post))) :=
    List.perm_middle
  have h2 : (pre ++ (mid ++ g :: post)).Perm (g :: (pre ++ (mid ++ post))) := by
    rw [← List.append_assoc, ← List.append_assoc]
    exact List.perm_middle
  exact h1.trans (List.Perm.cons f h2)

/-- Claim C20. Pair resolution does not depend on the order of the directory entries: on a
list and on a permutation of it, either both runs of the loop fail, each with a naming
conflict between two names of the list, or both succeed with mappings that give the same
pair, or no pair, for every output name. -/
theorem resolve_perm (files files' : List FileInfo) (h : files.Perm files') :
    (∃ e e', main.resolve files = .error e ∧ main.resolve files' = .error e' ∧
      NamingConflict (files.map fun f => f.Name) e ∧
      NamingConflict (files.map fun f => f.Name) e') ∨
    (∃ m m', main.resolve files = .ok m ∧ main.resolve files' = .ok m' ∧
      ∀ k, m.get k = m'.get k) := by
  rcases pairLoop_perm h [] (fun e he => absurd he (List.not_mem_nil e)) with
    ⟨e1, e2, h1, h2⟩ | ⟨m1, m2, h1, h2, hm⟩
  · left
    refine ⟨e1, e2, h1, h2, resolve_error_names _ e1 h1, ?_⟩
    obtain ⟨u, v, hu, hv, hmsg⟩ := resolve_error_names _ e2 h2
    have hsub : ∀ x, x ∈ files'.map (fun f => f.Name) → x ∈ files.map (fun f => f.Name) :=
      fun x hx => ((h.map fun f => f.Name).mem_iff).mpr hx
    exact ⟨u, v, hsub u hu, hsub v hv, hmsg⟩
  · exact Or.inr ⟨m1, m2, h1, h2, hm⟩

/-- Claim C20, witness: the names `a.L.wav`, `b.R.wav`, `a.R.wav` and the same names in the
order `b.R.wav`, `a.R.wav`, `a.L.wav`. -/
theorem resolve_perm_witness :
    main.resolve (plainFiles ["a.L.wav", "b.R.wav", "a.R.wav"])
      = .ok [("a.wav", ⟨"a.L.wav", "a.R.wav"⟩), ("b.wav", ⟨"", "b.R.wav"⟩)] ∧
    main.resolve (plainFiles ["b.R.wav", "a.R.wav", "a.L.wav"])
      = .ok [("b.wav", ⟨"", "b.R.wav"⟩), ("a.wav", ⟨"a.L.wav", "a.R.wav"⟩)] ∧
    ((∃ e e', main.resolve (plainFiles ["a.L.wav", "b.R.wav", "a.R.wav"]) = .error e ∧
        main.resolve (plainFiles ["b.R.wav", "a.R.wav", "a.L.wav"]) = .error e' ∧
        NamingConflict ((plainFiles ["a.L.wav", "b.R.wav", "a.R.wav"]).map fun f => f.Name) e ∧
        NamingConflict ((plainFiles ["a.L.wav", "b.R.wav", "a.R.wav"]).map fun f => f.Name)
          e') ∨
      (∃ m m', main.resolve (plainFiles ["a.L.wav", "b.R.wav", "a.R.wav"]) = .ok m ∧
        main.resolve (plainFiles ["b.R.wav", "a.R.wav", "a.L.wav"]) = .ok m' ∧
        ∀ k, m.get k = m'.get k)) :=
  ⟨by decide, by decide,
    resolve_perm (plainFiles ["a.L.wav", "b.R.wav", "a.R.wav"])
      (plainFiles ["b.R.wav", "a.R.wav", "a.L.wav"]) (by decide)⟩

/-! ## Theorems: every value that `WriteSamples` emits -/

/-- The bytes prescribed for a sample list are the bytes of its values, one value after the
other in the order of emission. -/
theorem specEncodeSamples_eq (numChannels bitsPerSample : Nat) (samples : List Sample) :
    specEncodeSamples numChannels bitsPerSample samples =
      (channelValues numChannels samples).flatMap
        fun v => leBytes (toUint v bitsPerSample) (bitsPerSample / 8) := by
  simp only [specEncodeSamples, channelValues, List.flatMap_assoc]

/-- The number of values that a writer of 1 or 2 channels takes from a sample list. -/
theorem channelValues_length (numChannels : Nat) (hch : numChannels = 1 ∨ numChannels = 2)
    (samples : List Sample) :
    (channelValues numChannels samples).length = samples.length * numChannels := by
  induction samples with
  | nil => simp [channelValues]
  | cons sample rest ih =>
    have hc : channelValues numChannels (sample :: rest) =
        channelValues numChannels [sample] ++ channelValues numChannels rest := by
      simp [channelValues]
    rw [hc, List.length_append, ih]
    rcases hch with hch | hch <;> subst hch <;> simp [channelValues] <;> ring

/-- One value, written and read back: at the widths 8, 16, 24 and 32 the bytes of the
pattern that `toUint` gives decode to the value, for a value of the signed range. -/
theorem decode_leBytes_toUint (w : Nat) (v : Int) (hw : w = 8 ∨ w = 16 ∨ w = 24 ∨ w = 32)
    (hlo : -2 ^ (w - 1) ≤ v) (hhi : v ≤ 2 ^ (w - 1) - 1) :
    decodeSigned w (leValue (leBytes (toUint v w) (w / 8))) = v := by
  rcases hw with hw | hw | hw | hw <;> subst hw
  all_goals
    simp only [leBytes, toUint, decodeSigned]
    norm_num [List.range_succ, leValue] at hlo hhi ⊢
    (try split_ifs) <;> omega

/-- Reading back the bytes of a list of values gives the values, when each is in the signed
range of the width. -/
theorem decodeValues_flatMap (w : Nat) (hw : w = 8 ∨ w = 16 ∨ w = 24 ∨ w = 32)
    (vs : List Int) (hrange : ∀ v ∈ vs, -2 ^ (w - 1) ≤ v ∧ v ≤ 2 ^ (w - 1) - 1) :
    decodeValues w vs.length (vs.flatMap fun v => leBytes (toUint v w) (w / 8)) = vs := by
  induction vs with
  | nil => rfl
  | cons v rest ih =>
    have hv := hrange v (List.mem_cons_self _ _)
    have hrest := ih fun u hu => hrange u (List.mem_cons_of_mem _ hu)
    have hl : (leBytes (toUint v w) (w / 8)).length = w / 8 := leBytes_length _ _
    simp only [List.flatMap_cons, List.length_cons, decodeValues]
    rw [List.take_left' hl, List.drop_left' hl, decode_leBytes_toUint w v hw hv.1 hv.2, hrest]

/-- Claim C9. Round trip, for every sample and every channel: on a writer of 1 or 2 channels
whose bit depth `w` is 8, 16, 24 or 32, over a sink that accepts every buffer, and for every
sample list whose emitted values lie in the signed range of `w` (`-2^(w-1) ≤ v ≤ 2^(w-1)-1`),
`WriteSamples` succeeds and appends `w / 8` bytes for each value; these bytes, read back
value by value as little-endian unsigned patterns and decoded by two's complement at width
`w`, give exactly the values of the samples, sample by sample, channel 0 then channel 1. -/
theorem writeSamples_roundtrip (wr : Writer) (samples : List Sample)
    (hw : wr.Format.BitsPerSample = 8 ∨ wr.Format.BitsPerSample = 16 ∨
      wr.Format.BitsPerSample = 24 ∨ wr.Format.BitsPerSample = 32)
    (hch : wr.Format.NumChannels = 1 ∨ wr.Format.NumChannels = 2)
    (hsink : ∀ a p, wr.riff.sink.refuses a p = none)
    (hrange : ∀ v ∈ channelValues wr.Format.NumChannels samples,
      -2 ^ (wr.Format.BitsPerSample - 1) ≤ v ∧ v ≤ 2 ^ (wr.Format.BitsPerSample - 1) - 1) :
    ∃ wr' bytes, wr.WriteSamples samples = .ok wr' ∧ wr'.written = wr.written ++ bytes ∧
      bytes.length = samples.length * wr.Format.NumChannels * (wr.Format.BitsPerSample / 8) ∧
      decodeValues wr.Format.BitsPerSample (samples.length * wr.Format.NumChannels) bytes
        = channelValues wr.Format.NumChannels samples := by
  have hbits : wr.Format.BitsPerSample % 8 = 0 := by
    rcases hw with h | h | h | h <;> rw [h]
  obtain ⟨wr', h, _, _, _, _, hwr⟩ := writeSamples_written wr samples hch hbits hsink
  refine ⟨wr', _, h, hwr, specEncodeSamples_length _ _ hch samples, ?_⟩
  rw [specEncodeSamples_eq, ← channelValues_length _ hch samples]
  exact decodeValues_flatMap _ hw _ hrange

/-- Claim C9, witness: two stereo 16-bit samples with the minimum, the maximum, zero and
`-1`; the right channel is read back from the second, fourth pair of bytes. -/
theorem writeSamples_roundtrip_witness :
    ∃ wr' bytes, (NewWriter IoWriter.buffer 2 2 44100 16).WriteSamples
          [⟨(-32768, 32767)⟩, ⟨(0, -1)⟩] = .ok wr' ∧
      wr'.written = (NewWriter IoWriter.buffer 2 2 44100 16).written ++ bytes ∧
      bytes.length = 2 * 2 * (16 / 8) ∧
      decodeValues 16 (2 * 2) bytes = [-32768, 32767, 0, -1] :=
  writeSamples_roundtrip (NewWriter IoWriter.buffer 2 2 44100 16)
    [⟨(-32768, 32767)⟩, ⟨(0, -1)⟩] (by decide) (by decide) (fun _ _ => rfl) (by decide)

/-- Claim C19. Out-of-range values are truncated by one rule at every width, for every
value that `WriteSamples` emits: on a writer of 1 or 2 channels whose bit depth `w` is 8,
16, 24 or 32, over a sink that accepts every buffer, and for every sample list, with every
integer value in or out of the signed range, the bytes appended are, sample by sample,
channel 0 then channel 1, the `w / 8` little-endian bytes of `v mod 2 ^ w`. The branches of
`toUint` for 8, 16 and 32 bits and its additive branch give the bytes of this one formula. -/
theorem writeSamples_uniform_truncation (wr : Writer) (samples : List Sample)
    (hw : wr.Format.BitsPerSample = 8 ∨ wr.Format.BitsPerSample = 16 ∨
      wr.Format.BitsPerSample = 24 ∨ wr.Format.BitsPerSample = 32)
    (hch : wr.Format.NumChannels = 1 ∨ wr.Format.NumChannels = 2)
    (hsink : ∀ a p, wr.riff.sink.refuses a p = none) :
    ∃ wr', wr.WriteSamples samples = .ok wr' ∧
      wr'.written = wr.written ++
        (channelValues wr.Format.NumChannels samples).flatMap fun v =>
          leBytes (v % 2 ^ wr.Format.BitsPerSample).toNat (wr.Format.BitsPerSample / 8) := by
  have hbits : wr.Format.BitsPerSample % 8 = 0 := by
    rcases hw with h | h | h | h <;> rw [h]
  obtain ⟨wr', h, _, _, _, _, hwr⟩ := writeSamples_written wr samples hch hbits hsink
  refine ⟨wr', h, ?_⟩
  rw [hwr, specEncodeSamples_eq]
  congr 2
  funext v
  exact leBytes_toUint _ v hw

/-- Claim C19, witness: a stereo 24-bit sample with `2 ^ 23` (one above the maximum) on the
left and `-2 ^ 23 - 1` (one below the minimum) on the right, and a second sample; the bytes
are `00 00 80`, `FF FF 7F`, `01 00 00`, `FE FF FF`. -/
theorem writeSamples_uniform_truncation_witness :
    ∃ wr', (NewWriter IoWriter.buffer 2 2 44100 24).WriteSamples
          [⟨(8388608, -8388609)⟩, ⟨(1, -2)⟩] = .ok wr' ∧
      wr'.written = [0, 0, 128, 255, 255, 127, 1, 0, 0, 254, 255, 255] := by
  obtain ⟨wr', h, hwr⟩ := writeSamples_uniform_truncation
    (NewWriter IoWriter.buffer 2 2 44100 24) [⟨(8388608, -8388609)⟩, ⟨(1, -2)⟩]
    (by decide) (by decide) (fun _ _ => rfl)
  refine ⟨wr', h, ?_⟩
  rw [hwr]
  decide

/-! ## Theorems: the files that a naming conflict names -/

/-- One turn of the loop after the entries `done`: when every side set in the mapping is
the name of one of `done`, classified on that side with that output name, then a fault of
the turn is the conflict of one of `done` with the entry of the turn, and after a turn
without fault every side set is the name of one of `done` or of the entry of the turn. -/
theorem pairStep_origin (done : List FileInfo) (m : OutMap) (h : FileInfo)
    (hinv : ∀ k a, m.get k = some a →
      (a.L ≠ "" → ∃ u ∈ done, main.classify u = some (k, ⟨u.Name, ""⟩) ∧ a.L = u.Name) ∧
      (a.R ≠ "" → ∃ u ∈ done, main.classify u = some (k, ⟨"", u.Name⟩) ∧ a.R = u.Name)) :
    (∀ msg, main.pairStep m h = .error msg → ∃ u ∈ done, ConflictBetween u h msg) ∧
    (∀ m', main.pairStep m h = .ok m' → ∀ k a, m'.get k = some a →
      (a.L ≠ "" →
        ∃ u ∈ done ++ [h], main.classify u = some (k, ⟨u.Name, ""⟩) ∧ a.L = u.Name) ∧
      (a.R ≠ "" →
        ∃ u ∈ done ++ [h], main.classify u = some (k, ⟨"", u.Name⟩) ∧ a.R = u.Name)) := by
  have hmono : ∀ k a, m.get k = some a →
      (a.L ≠ "" →
        ∃ u ∈ done ++ [h], main.classify u = some (k, ⟨u.Name, ""⟩) ∧ a.L = u.Name) ∧
      (a.R ≠ "" →
        ∃ u ∈ done ++ [h], main.classify u = some (k, ⟨"", u.Name⟩) ∧ a.R = u.Name) := by
    intro k a hka
    obtain ⟨h1, h2⟩ := hinv k a hka
    constructor
    · intro ha
      obtain ⟨u, hu, hc⟩ := h1 ha
      exact ⟨u, List.mem_append_left _ hu, hc⟩
    · intro ha
      obtain ⟨u, hu, hc⟩ := h2 ha
      exact ⟨u, List.mem_append_left _ hu, hc⟩
  rw [pairStep_eq]
  cases hc : main.classify h with
  | none =>
    exact ⟨fun msg he => absurd he (by simp), fun m' hm => Except.ok.inj hm ▸ hmono⟩
  | some kb =>
    obtain ⟨k0, b⟩ := kb
    obtain ⟨hb, hname⟩ := classify_single hc
    have hbL : b.L ≠ "" → main.classify h = some (k0, ⟨h.Name, ""⟩) ∧ b.L = h.Name := by
      intro hne
      rcases hb with hb | hb <;> subst hb
      · exact ⟨hc, rfl⟩
      · exact absurd rfl hne
    have hbR : b.R ≠ "" → main.classify h = some (k0, ⟨"", h.Name⟩) ∧ b.R = h.Name := by
      intro hne
      rcases hb with hb | hb <;> subst hb
      · exact absurd rfl hne
      · exact ⟨hc, rfl⟩
    have hself : h ∈ done ++ [h] := List.mem_append_right _ (List.mem_singleton_self h)
    simp only [store_eq]
    cases hg : m.get k0 with
    | none =>
      simp only [main.merged]
      refine ⟨fun msg he => absurd he (by simp), fun m' hm k a hka => ?_⟩
      rw [← Except.ok.inj hm, OutMap.get_set] at hka
      split_ifs at hka with hk
      · subst hk
        have hab : b = a := Option.some.inj hka
        subst hab
        exact ⟨fun hne => ⟨h, hself, hbL hne⟩, fun hne => ⟨h, hself, hbR hne⟩⟩
      · exact hmono k a hka
    | some a0 =>
      obtain ⟨h1, h2⟩ := hinv k0 a0 hg
      simp only [main.merged]
      cases hm0 : a0.combine b with
      | error e0 =>
        refine ⟨fun msg he => ?_, fun m' hm => absurd hm (by simp)⟩
        have hmsg : e0 = msg := Except.error.inj he
        subst hmsg
        rcases combine_error hm0 with ⟨ha, hbn, hmsg⟩ | ⟨ha, hbn, hmsg⟩
        · obtain ⟨u, hu, hcu, hau⟩ := h1 ha
          obtain ⟨hch, hbh⟩ := hbL hbn
          exact ⟨u, hu, k0, Or.inl ⟨hcu, hch, by rw [hmsg, hau, hbh]⟩⟩
        · obtain ⟨u, hu, hcu, hau⟩ := h2 ha
          obtain ⟨hch, hbh⟩ := hbR hbn
          exact ⟨u, hu, k0, Or.inr ⟨hcu, hch, by rw [hmsg, hau, hbh]⟩⟩
      | ok v =>
        refine ⟨fun msg he => absurd he (by simp), fun m' hm k a hka => ?_⟩
        rw [← Except.ok.inj hm, OutMap.get_set] at hka
        split_ifs at hka with hk
        · subst hk
          have hva : v = a := Option.some.inj hka
          subst hva
          obtain ⟨hl, hr⟩ := combine_sides hm0
          constructor
          · intro hne
            rcases hl with hl | hl
            · rw [hl] at hne ⊢
              obtain ⟨u, hu, hcu⟩ := h1 hne
              exact ⟨u, List.mem_append_left _ hu, hcu⟩
            · rw [hl] at hne ⊢
              exact ⟨h, hself, hbL hne⟩
          · intro hne
            rcases hr with hr | hr
            · rw [hr] at hne ⊢
              obtain ⟨u, hu, hcu⟩ := h2 hne
              exact ⟨u, List.mem_append_left _ hu, hcu⟩
            · rw [hr] at hne ⊢
              exact ⟨h, hself, hbR hne⟩
        · exact hmono k a hka

/-- A fault of the loop is the conflict of two directory entries, the first of which comes
before the second in the list. -/
theorem pairLoop_error_origin (rest : List FileInfo) :
    ∀ (done : List FileInfo) (m : OutMap),
      (∀ k a, m.get k = some a →
        (a.L ≠ "" → ∃ u ∈ done, main.classify u = some (k, ⟨u.Name, ""⟩) ∧ a.L = u.Name) ∧
        (a.R ≠ "" → ∃ u ∈ done, main.classify u = some (k, ⟨"", u.Name⟩) ∧ a.R = u.Name)) →
      ∀ msg, main.pairLoop rest m = .error msg →
        ∃ l1 u l2 v l3, done ++ rest = l1 ++ u :: (l2 ++ v :: l3) ∧
          ConflictBetween u v msg := by
  induction rest with
  | nil =>
    intro done m _ msg h
    exact absurd h (by simp [main.pairLoop])
  | cons h t ih =>
    intro done m hinv msg hmsg
    obtain ⟨herr, hok⟩ := pairStep_origin done m h hinv
    rw [pairLoop_cons] at hmsg
    cases hs : main.pairStep m h with
    | error e0 =>
      rw [hs, Except.error_bind] at hmsg
      obtain ⟨u, hu, hconf⟩ := herr msg (hs.trans hmsg)
      obtain ⟨l1, l2, hsplit⟩ := List.append_of_mem hu
      refine ⟨l1, u, l2, h, t, ?_, hconf⟩
      rw [hsplit]
      simp
    | ok m' =>
      rw [hs, Except.ok_bind] at hmsg
      obtain ⟨l1, u, l2, v, l3, hsplit, hconf⟩ := ih (done ++ [h]) m' (hok m' hs) msg hmsg
      refine ⟨l1, u, l2, v, l3, ?_, hconf⟩
      rw [← hsplit]
      simp

/-- The loop over a list in two parts. -/
theorem pairLoop_append (l1 l2 : List FileInfo) :
    ∀ m : OutMap, main.pairLoop (l1 ++ l2) m = main.pairLoop l1 m >>= main.pairLoop l2 := by
  induction l1 with
  | nil =>
    intro m
    rfl
  | cons f rest ih =>
    intro m
    rw [List.cons_append, pairLoop_cons, pairLoop_cons]
    cases main.pairStep m f with
    | error e => rfl
    | ok n =>
      rw [Except.ok_bind, Except.ok_bind]
      exact ih n

/-- A side that is set in an entry stays as it is through a turn of the loop. -/
theorem pairStep_keeps_side {m m' : OutMap} {h : FileInfo} (hs : main.pairStep m h = .ok m')
    {k : String} {a : lr} (hka : m.get k = some a) :
    ∃ a', m'.get k = some a' ∧ (a.L ≠ "" → a'.L = a.L) ∧ (a.R ≠ "" → a'.R = a.R) := by
  rw [pairStep_eq] at hs
  cases hc : main.classify h with
  | none =>
    rw [hc] at hs
    exact ⟨a, Except.ok.inj hs ▸ hka, fun _ => rfl, fun _ => rfl⟩
  | some kb =>
    obtain ⟨k0, b⟩ := kb
    have hone := classify_one_side hc
    rw [hc] at hs
    simp only [store_eq] at hs
    by_cases hk : k0 = k
    · subst hk
      rw [hka] at hs
      simp only [main.merged] at hs
      cases hm : a.combine b with
      | error e =>
        rw [hm] at hs
        exact absurd hs (by simp)
      | ok v =>
        rw [hm] at hs
        refine ⟨v, by rw [← Except.ok.inj hs, OutMap.get_set, if_pos rfl], ?_, ?_⟩
        · intro ha
          unfold lr.combine at hm
          split_ifs at hm with h1 h2
          rw [← Except.ok.inj hm]
        · intro ha
          unfold lr.combine at hm
          split_ifs at hm with h1 h2 h3
          · rw [← Except.ok.inj hm]
          · exfalso
            have hbR : b.R = "" := by
              by_contra hne
              exact h2 ⟨ha, hne⟩
            have hbL : b.L = "" := by
              by_contra hne
              exact h1 ⟨h3, hne⟩
            rcases hone with ⟨hx, _⟩ | ⟨_, hy⟩
            · exact hx hbL
            · exact hy hbR
    · cases hm : main.merged (m.get k0) b with
      | error e =>
        rw [hm] at hs
        exact absurd hs (by simp)
      | ok v =>
        rw [hm] at hs
        exact ⟨a, by rw [← Except.ok.inj hs, OutMap.get_set, if_neg hk, hka],
          fun _ => rfl, fun _ => rfl⟩

/-- A side that is set in an entry stays as it is through the loop. -/
theorem pairLoop_keeps_side (l : List FileInfo) :
    ∀ (m m' : OutMap), main.pairLoop l m = .ok m' →
      ∀ (k : String) (a : lr), m.get k = some a →
        ∃ a', m'.get k = some a' ∧ (a.L ≠ "" → a'.L = a.L) ∧ (a.R ≠ "" → a'.R = a.R) := by
  induction l with
  | nil =>
    intro m m' h k a hka
    exact ⟨a, Except.ok.inj h ▸ hka, fun _ => rfl, fun _ => rfl⟩
  | cons f rest ih =>
    intro m m' h k a hka
    rw [pairLoop_cons] at h
    cases hs : main.pairStep m f with
    | error e =>
      rw [hs, Except.error_bind] at h
      exact absurd h (by simp)
    | ok n =>
      rw [hs, Except.ok_bind] at h
      obtain ⟨a1, hk1, hL1, hR1⟩ := pairStep_keeps_side hs hka
      obtain ⟨a2, hk2, hL2, hR2⟩ := ih n m' h k a1 hk1
      refine ⟨a2, hk2, ?_, ?_⟩
      · intro ha
        rw [hL2 (by rw [hL1 ha]; exact ha), hL1 ha]
      · intro ha
        rw [hR2 (by rw [hR1 ha]; exact ha), hR1 ha]

/-- After a turn without fault on a classified entry, the entry of its output name has the
name of the entry on the side it was classified on. -/
theorem pairStep_sets_side {m m' : OutMap} {h : FileInfo} {k : String} {b : lr}
    (hc : main.classify h = some (k, b)) (hs : main.pairStep m h = .ok m')
    (hinv : ∀ e ∈ m, e.2.L ≠ "" ∨ e.2.R ≠ "") :
    ∃ a', m'.get k = some a' ∧ (b.L ≠ "" → a'.L = b.L) ∧ (b.R ≠ "" → a'.R = b.R) := by
  rw [pairStep_eq, hc] at hs
  simp only [store_eq] at hs
  cases hg : m.get k with
  | none =>
    rw [hg] at hs
    simp only [main.merged] at hs
    exact ⟨b, by rw [← Except.ok.inj hs, OutMap.get_set, if_pos rfl], fun _ => rfl,
      fun _ => rfl⟩
  | some a =>
    have ha := get_side_nonempty hinv k a hg
    rw [hg] at hs
    simp only [main.merged] at hs
    cases hm : a.combine b with
    | error e =>
      rw [hm] at hs
      exact absurd hs (by simp)
    | ok v =>
      rw [hm] at hs
      refine ⟨v, by rw [← Except.ok.inj hs, OutMap.get_set, if_pos rfl], ?_, ?_⟩
      · intro hb
        unfold lr.combine at hm
        split_ifs at hm with h1 h2 h3
        · rw [← Except.ok.inj hm]
        · exact absurd ⟨h3, hb⟩ h1
      · intro hb
        unfold lr.combine at hm
        split_ifs at hm with h1 h2 h3
        · exfalso
          rcases ha with ha | ha
          · exact ha h3
          · exact h2 ⟨ha, hb⟩
        · rw [← Except.ok.inj hm]

/-- Claim C16. For every list of directory entries in which two entries `f` and `g`, `f`
before `g`, are both classified as left, or both as right, with the same output name, the
pair resolution loop fails with a naming conflict whose message names both files of a
conflict: two entries `u` and `v` of the list, `u` before `v`, classified on the same side
with the same output name, the message being the panic text of `combine` for that side
filled with the name of `u` and the name of `v`. They are the first conflict that the loop
meets; when the entries before `g` resolve without fault, they are `f` and `g`
themselves. -/
theorem resolve_conflict (pre mid post : List FileInfo) (f g : FileInfo) (k : String)
    (hconf :
      (main.classify f = some (k, ⟨f.Name, ""⟩) ∧ main.classify g = some (k, ⟨g.Name, ""⟩)) ∨
      (main.classify f = some (k, ⟨"", f.Name⟩) ∧ main.classify g = some (k, ⟨"", g.Name⟩))) :
    (∃ msg l1 u l2 v l3, main.resolve (pre ++ f :: (mid ++ g :: post)) = .error msg ∧
      pre ++ f :: (mid ++ g :: post) = l1 ++ u :: (l2 ++ v :: l3) ∧
      ConflictBetween u v msg) ∧
    ((∃ m, main.resolve (pre ++ f :: mid) = .ok m) →
      ∃ msg, main.resolve (pre ++ f :: (mid ++ g :: post)) = .error msg ∧
        ConflictBetween f g msg) := by
  constructor
  · have hfail : ∃ e, main.pairLoop (f :: g :: (pre ++ (mid ++ post))) [] = .error e := by
      rcases hconf with ⟨hf, hg⟩ | ⟨hf, hg⟩
      · exact ⟨_, (pairLoop_two_conflict f g k _).1 hf hg⟩
      · exact ⟨_, (pairLoop_two_conflict f g k _).2 hf hg⟩
    obtain ⟨e, he⟩ := hfail
    have hp := pairLoop_perm (perm_two_front pre mid post f g) []
      (fun e he => absurd he (List.not_mem_nil e))
    have herr : ∃ msg, main.resolve (pre ++ f :: (mid ++ g :: post)) = .error msg := by
      rcases hp with ⟨e1, e2, h1, _⟩ | ⟨m1, m2, _, h2, _⟩
      · exact ⟨e1, h1⟩
      · rw [he] at h2
        exact absurd h2 (by simp)
    obtain ⟨msg, hmsg⟩ := herr
    obtain ⟨l1, u, l2, v, l3, hsplit, hc⟩ := pairLoop_error_origin
      (pre ++ f :: (mid ++ g :: post)) [] []
      (fun k a hka => absurd hka (by simp [OutMap.get])) msg hmsg
    exact ⟨msg, l1, u, l2, v, l3, hmsg, by simpa using hsplit, hc⟩
  · rintro ⟨m, hm⟩
    have hm' : main.pairLoop pre [] >>= main.pairLoop (f :: mid) = .ok m := by
      rw [← pairLoop_append]
      exact hm
    cases h0 : main.pairLoop pre [] with
    | error e =>
      rw [h0, Except.error_bind] at hm'
      exact absurd hm' (by simp)
    | ok m0 =>
      rw [h0, Except.ok_bind, pairLoop_cons] at hm'
      have hinv0 := pairLoop_side_nonempty pre [] m0 h0 (by simp)
      cases h1 : main.pairStep m0 f with
      | error e =>
        rw [h1, Except.error_bind] at hm'
        exact absurd hm' (by simp)
      | ok m1 =>
        rw [h1, Except.ok_bind] at hm'
        have hall : main.resolve (pre ++ f :: (mid ++ g :: post))
            = main.pairStep m g >>= main.pairLoop post := by
          rw [main.resolve, pairLoop_append, h0, Except.ok_bind, pairLoop_cons, h1,
            Except.ok_bind, pairLoop_append, hm', Except.ok_bind, pairLoop_cons]
        rcases hconf with ⟨hf, hg⟩ | ⟨hf, hg⟩
        · have hnf := (classify_single hf).2
          have hng := (classify_single hg).2
          obtain ⟨a1, hk1, hL1, _⟩ := pairStep_sets_side hf h1 hinv0
          have ha1 : a1.L = f.Name := hL1 hnf
          obtain ⟨a, hk, hL, _⟩ := pairLoop_keeps_side mid m1 m hm' k a1 hk1
          have ha : a.L = f.Name := by rw [hL (by rw [ha1]; exact hnf), ha1]
          have hstep : main.pairStep m g =
              .error ("mis-matched L files: '" ++ f.Name ++ "' and '" ++ g.Name ++ "'") := by
            rw [pairStep_eq, hg]
            simp only [store_eq, hk, main.merged, lr.combine, ha]
            simp [hnf, hng]
          refine ⟨_, by rw [hall, hstep, Except.error_bind], k, Or.inl ⟨hf, hg, rfl⟩⟩
        · have hnf := (classify_single hf).2
          have hng := (classify_single hg).2
          obtain ⟨a1, hk1, _, hR1⟩ := pairStep_sets_side hf h1 hinv0
          have ha1 : a1.R = f.Name := hR1 hnf
          obtain ⟨a, hk, _, hR⟩ := pairLoop_keeps_side mid m1 m hm' k a1 hk1
          have ha : a.R = f.Name := by rw [hR (by rw [ha1]; exact hnf), ha1]
          have hstep : main.pairStep m g =
              .error ("mis-matched R files: '" ++ f.Name ++ "' and '" ++ g.Name ++ "'") := by
            rw [pairStep_eq, hg]
            simp only [store_eq, hk, main.merged, lr.combine, ha]
            simp [hnf, hng]
          refine ⟨_, by rw [hall, hstep, Except.error_bind], k, Or.inr ⟨hf, hg, rfl⟩⟩

/-- Claim C16, witness: the names `a.L.wav.wav` and `a.wav.L.wav`, which are both classified
as left and both give the output name `a.wav.wav`. -/
theorem resolve_conflict_witness :
    main.resolve (plainFiles ["a.L.wav.wav", "a.wav.L.wav"])
      = .error "mis-matched L files: 'a.L.wav.wav' and 'a.wav.L.wav'" ∧
    ∃ msg, main.resolve ([] ++ ⟨"a.L.wav.wav", false⟩ :: ([] ++ ⟨"a.wav.L.wav", false⟩ :: []))
        = .error msg ∧
      ConflictBetween ⟨"a.L.wav.wav", false⟩ ⟨"a.wav.L.wav", false⟩ msg :=
  ⟨by decide,
    (resolve_conflict [] [] [] ⟨"a.L.wav.wav", false⟩ ⟨"a.wav.L.wav", false⟩ "a.wav.wav"
      (Or.inl ⟨by decide, by decide⟩)).2
      ⟨[("a.wav.wav", ⟨"a.L.wav.wav", ""⟩)], by decide⟩⟩

/-- Example: with the three names `a.L.wav.wav.wav`, `a.wav.L.wav.wav` and
`a.wav.wav.L.wav`, all classified as left with the output name `a.wav.wav.wav`, the loop
fails at the second name, and the message names the first two. -/
theorem resolve_conflict_three_names :
    main.resolve (plainFiles ["a.L.wav.wav.wav", "a.wav.L.wav.wav", "a.wav.wav.L.wav"])
      = .error "mis-matched L files: 'a.L.wav.wav.wav' and 'a.wav.L.wav.wav'" := by
  decide

/-! ## Theorems: the first pair of an output name -/

/-- Claim C18, counterexample. Merging the right-only pair of `song.R.wav` into the empty
pair gives the empty pair, not the right-only pair: with `a.L` empty `combine` copies `b.L`
and nothing else. -/
theorem combine_empty_right_only :
    lr.combine ⟨"", ""⟩ ⟨"", "song.R.wav"⟩ = .ok ⟨"", ""⟩ ∧
    (⟨"", ""⟩ : lr) ≠ ⟨"", "song.R.wav"⟩ := by
  decide

/-- Claim C18, amended. A pair is filled incrementally from its first single-sided pair, not
from an empty pair: the loop stores the first pair `b` that comes for an output name as it
is, so that the entry of that name is `b`; every entry of a mapping that pair resolution
gives, and so every receiver of a later merge, has a side set. For a left-only pair `b`,
merging `b` into the empty pair gives `b` back. -/
theorem first_pair_stored (x : String) (outs : OutMap) (k : String) (b : lr)
    (files : List FileInfo) :
    lr.combine ⟨"", ""⟩ ⟨x, ""⟩ = .ok ⟨x, ""⟩ ∧
    (outs.get k = none →
      ∃ outs', main.store outs k b = .ok outs' ∧ outs'.get k = some b) ∧
    (∀ m a, main.resolve files = .ok m → m.get k = some a → a.L ≠ "" ∨ a.R ≠ "") := by
  refine ⟨by simp [lr.combine], ?_, ?_⟩
  · intro hk
    refine ⟨outs.set k b, ?_, by rw [OutMap.get_set, if_pos rfl]⟩
    simp only [main.store, hk]
  · intro m a hm hka
    exact get_side_nonempty (pairLoop_side_nonempty files [] m hm (by simp)) k a hka

/-- Claim C18, witness: the left-only pair of `song.L.wav`, merged into the empty pair and
stored as the first pair of `song.wav`. -/
theorem first_pair_stored_witness :
    lr.combine ⟨"", ""⟩ ⟨"song.L.wav", ""⟩ = .ok ⟨"song.L.wav", ""⟩ ∧
    ∃ outs', main.store [] "song.wav" ⟨"song.L.wav", ""⟩ = .ok outs' ∧
      outs'.get "song.wav" = some ⟨"song.L.wav", ""⟩ :=
  have h := first_pair_stored "song.L.wav" [] "song.wav" ⟨"song.L.wav", ""⟩ []
  ⟨h.1, h.2.1 rfl⟩

end Stereoize
